import Mathlib

/-!
Shallow embedding of the CattoPic metadata service
(`worker/src/services/metadata.ts`) over its SQLite schema
(`images`, `tags`, `image_tags`).

Every SQL statement the service issues is modelled as a `Stmt`; the D1
`db.batch` primitive is modelled by `batch`, sequential execution in the
`Except` monad.  D1 batches are transactional: when any statement fails the
whole batch rolls back, which the model captures by the error branch carrying
no database state — a caller holding the pre-batch `DB` observes it unchanged.

Strings model SQLite TEXT (the `upload_time` column holds ISO-8601 text whose
byte order is chronological, so `String` lexicographic order models the SQL
`ORDER BY upload_time DESC`).  `ORDER BY RANDOM() LIMIT 1` is modelled by an
oracle index into the list of qualifying rows.
-/

namespace Catto

inductive Orientation
  | landscape
  | portrait
deriving DecidableEq, Repr

structure ImagePaths where
  original : String
  webp : String
  avif : String
deriving DecidableEq, Repr

structure ImageSizes where
  original : Nat
  webp : Nat
  avif : Nat
deriving DecidableEq, Repr

/-- The `ImageMetadata` record of `worker/src/types` as consumed and produced
by the service.  A TS `undefined` optional field is `none`. -/
structure ImageMetadata where
  id : String
  originalName : String
  uploadTime : String
  expiryTime : Option String
  orientation : Orientation
  tags : List String
  format : String
  width : Nat
  height : Nat
  paths : ImagePaths
  sizes : ImageSizes
deriving DecidableEq, Repr

/-- A row of the `images` table (schema.sql). -/
structure ImageRow where
  id : String
  original_name : String
  upload_time : String
  expiry_time : Option String
  orientation : Orientation
  format : String
  width : Nat
  height : Nat
  path_original : String
  path_webp : Option String
  path_avif : Option String
  size_original : Nat
  size_webp : Nat
  size_avif : Nat
deriving DecidableEq, Repr

/-- A row of the `tags` table: `id INTEGER PRIMARY KEY AUTOINCREMENT, name UNIQUE`. -/
structure TagRow where
  id : Nat
  name : String
deriving DecidableEq, Repr

/-- A row of the `image_tags` association table, `PRIMARY KEY (image_id, tag_id)`. -/
structure ImageTagRow where
  image_id : String
  tag_id : Nat
deriving DecidableEq, Repr

/-- The database state.  `nextTagId` models the AUTOINCREMENT counter of
`tags.id`: every existing tag id is smaller than it. -/
structure DB where
  images : List ImageRow
  tags : List TagRow
  image_tags : List ImageTagRow
  nextTagId : Nat
deriving DecidableEq, Repr

/-- JS `s || null` for a string bind parameter: the empty string is falsy. -/
def strToNull (s : String) : Option String :=
  if s = "" then none else some s

/-- JS `v || null` for an optional string: `undefined` and `''` both become NULL. -/
def optToNull (o : Option String) : Option String :=
  match o with
  | none => none
  | some s => strToNull s

/-- The bind parameters of the `INSERT INTO images ...` in `saveImage`,
as the row they create. -/
def metaToRow (m : ImageMetadata) : ImageRow :=
  { id := m.id
    original_name := m.originalName
    upload_time := m.uploadTime
    expiry_time := optToNull m.expiryTime
    orientation := m.orientation
    format := m.format
    width := m.width
    height := m.height
    path_original := m.paths.original
    path_webp := strToNull m.paths.webp
    path_avif := strToNull m.paths.avif
    size_original := m.sizes.original
    size_webp := m.sizes.webp
    size_avif := m.sizes.avif }

/-- `rowToMetadata` of the service: `expiry_time || undefined`,
`path_webp || ''`, `path_avif || ''`. -/
def rowToMetadata (row : ImageRow) (tags : List String) : ImageMetadata :=
  { id := row.id
    originalName := row.original_name
    uploadTime := row.upload_time
    expiryTime := optToNull row.expiry_time
    orientation := row.orientation
    tags := tags
    format := row.format
    width := row.width
    height := row.height
    paths := { original := row.path_original
               webp := row.path_webp.getD ""
               avif := row.path_avif.getD "" }
    sizes := { original := row.size_original
               webp := row.size_webp
               avif := row.size_avif } }

/-- `SELECT 1 FROM images WHERE id = ?` — does an image row with this id exist. -/
def imageExists (db : DB) (id : String) : Bool :=
  db.images.any (fun r => r.id == id)

/-- `SELECT 1 FROM tags WHERE name = ?` — does a tag with this name exist. -/
def tagExists (db : DB) (name : String) : Bool :=
  db.tags.any (fun t => t.name == name)

/-- The image is associated (via `image_tags`) with some tag of this name. -/
def hasTagNamed (db : DB) (imgId name : String) : Bool :=
  db.tags.any (fun t =>
    t.name == name && db.image_tags.any (fun it =>
      it.image_id == imgId && it.tag_id == t.id))

inductive SqlError
  | uniqueViolation
  | fkViolation
deriving DecidableEq, Repr

/-- The SQL statements `MetadataService` issues (each constructor is one
prepared-statement shape with its bind parameters). -/
inductive Stmt
  | insertImage (m : ImageMetadata)
  | insertOrIgnoreTag (name : String)
  | insertAssocSel (imgId name : String)
  | insertOrIgnoreAssocSel (imgId name : String)
  | deleteAssoc (imgId name : String)
  | updateExpiry (expiry : Option String) (imgId : String)
deriving DecidableEq, Repr

/-- Insert the rows `(imgId, tid)` for `tid ∈ tids` into `image_tags`
(the `INSERT [OR IGNORE] INTO image_tags SELECT ?, id FROM tags WHERE name = ?`
shape inserts one row per tag matching the name).  A plain insert fails on the
`(image_id, tag_id)` primary key when the pair is present; `OR IGNORE` skips
it.  The `image_id` foreign key is checked against the current state (conflict
resolution does not ignore foreign-key violations). -/
def insertAssocRows (orIgnore : Bool) (imgId : String) (tids : List Nat) (db : DB) :
    Except SqlError DB :=
  match tids with
  | [] => .ok db
  | tid :: rest =>
    if imageExists db imgId then
      if db.image_tags.any (fun it => it.image_id == imgId && it.tag_id == tid) then
        if orIgnore then insertAssocRows orIgnore imgId rest db
        else .error .uniqueViolation
      else
        insertAssocRows orIgnore imgId rest
          { db with image_tags := db.image_tags ++ [⟨imgId, tid⟩] }
    else .error .fkViolation

/-- `INSERT OR IGNORE INTO tags (name) VALUES (?)`: no-op when the name
exists, otherwise a fresh autoincrement id. -/
def applyInsertOrIgnoreTag (db : DB) (name : String) : DB :=
  if tagExists db name then db
  else { db with tags := db.tags ++ [⟨db.nextTagId, name⟩]
                 nextTagId := db.nextTagId + 1 }

/-- `DELETE FROM image_tags WHERE image_id = ? AND tag_id = (SELECT id FROM
tags WHERE name = ?)`: a NULL scalar subquery matches nothing. -/
def applyDeleteAssoc (db : DB) (imgId name : String) : DB :=
  match db.tags.find? (fun t => t.name == name) with
  | none => db
  | some t =>
    { db with image_tags :=
        db.image_tags.filter (fun it => !(it.image_id == imgId && it.tag_id == t.id)) }

/-- `UPDATE images SET expiry_time = ? WHERE id = ?`. -/
def applyUpdateExpiry (db : DB) (e : Option String) (imgId : String) : DB :=
  { db with images :=
      db.images.map (fun r => if r.id == imgId then { r with expiry_time := e } else r) }

def execStmt (s : Stmt) (db : DB) : Except SqlError DB :=
  match s with
  | .insertImage m =>
    if imageExists db m.id then .error .uniqueViolation
    else .ok { db with images := db.images ++ [metaToRow m] }
  | .insertOrIgnoreTag name => .ok (applyInsertOrIgnoreTag db name)
  | .insertAssocSel imgId name =>
    insertAssocRows false imgId
      ((db.tags.filter (fun t => t.name == name)).map (fun t => t.id)) db
  | .insertOrIgnoreAssocSel imgId name =>
    insertAssocRows true imgId
      ((db.tags.filter (fun t => t.name == name)).map (fun t => t.id)) db
  | .deleteAssoc imgId name => .ok (applyDeleteAssoc db imgId name)
  | .updateExpiry e imgId => .ok (applyUpdateExpiry db e imgId)

/-- `db.batch(statements)`: sequential execution; an error aborts and (being a
transaction) leaves no partial state — the error branch carries no `DB`. -/
def batch : List Stmt → DB → Except SqlError DB
  | [], db => .ok db
  | s :: rest, db =>
    match execStmt s db with
    | .ok db1 => batch rest db1
    | .error e => .error e

/-- The tag names of an image as `getImage` reads them:
`SELECT t.name FROM tags t JOIN image_tags it ON t.id = it.tag_id WHERE
it.image_id = ?` (one name per joined pair; the association pairs are unique,
so per tag row at most one pair matches). -/
def imageTagNames (db : DB) (id : String) : List String :=
  (db.tags.filter (fun t =>
    db.image_tags.any (fun it => it.image_id == id && it.tag_id == t.id))).map
    (fun t => t.name)

/-- `getImage`: first `images` row with the id, enriched with its tag names;
`null` (= `none`) when absent. -/
def getImage (db : DB) (id : String) : Option ImageMetadata :=
  (db.images.find? (fun r => r.id == id)).map
    (fun row => rowToMetadata row (imageTagNames db id))

/-- The statement list `saveImage` builds: the image insert, then per tag the
idempotent tag creation and a plain association insert. -/
def saveImageStmts (m : ImageMetadata) : List Stmt :=
  Stmt.insertImage m ::
    m.tags.flatMap (fun t => [Stmt.insertOrIgnoreTag t, Stmt.insertAssocSel m.id t])

def saveImage (db : DB) (m : ImageMetadata) : Except SqlError DB :=
  batch (saveImageStmts m) db

/-- `Partial<ImageMetadata>` as `updateImage` consumes it: `tags` present iff
`some` (an empty array is truthy in JS, so `some []` takes the branch);
`expiryTime` present iff `some` (then bound as `updates.expiryTime || null`). -/
structure ImageUpdates where
  tags : Option (List String) := none
  expiryTime : Option String := none
deriving DecidableEq, Repr

/-- JS `new Set(l)` iteration order: first occurrence of each element. -/
def firstDedup : List String → List String
  | [] => []
  | a :: l => a :: firstDedup (l.filter (fun x => x ≠ a))
termination_by l => l.length
decreasing_by
  simp_wf
  exact Nat.lt_succ_of_le (List.length_filter_le _ _)

/-- The statement list `updateImage` builds against the current record:
deletes for old-not-new tags, ensure+associate for new-not-old tags, then the
expiry update when that field is present. -/
def updateImageStmts (id : String) (currentTags : List String) (u : ImageUpdates) :
    List Stmt :=
  (match u.tags with
   | none => []
   | some newList =>
     ((firstDedup currentTags).filter (fun t => !(newList.contains t))).map
       (fun t => Stmt.deleteAssoc id t)
     ++ ((firstDedup newList).filter (fun t => !(currentTags.contains t))).flatMap
       (fun t => [Stmt.insertOrIgnoreTag t, Stmt.insertOrIgnoreAssocSel id t]))
  ++ (match u.expiryTime with
      | none => []
      | some e => [Stmt.updateExpiry (strToNull e) id])

/-- The statements `updateImage` would hand to `db.batch` (empty when the
not-found path returns early, or when no change is detected). -/
def updateImagePlan (db : DB) (id : String) (u : ImageUpdates) : List Stmt :=
  match getImage db id with
  | none => []
  | some img => updateImageStmts id img.tags u

def updateImage (db : DB) (id : String) (u : ImageUpdates) :
    Except SqlError (DB × Option ImageMetadata) :=
  match getImage db id with
  | none => .ok (db, none)
  | some img =>
    match (if (updateImageStmts id img.tags u).length > 0
           then batch (updateImageStmts id img.tags u) db
           else .ok db) with
    | .error e => .error e
    | .ok db1 => .ok (db1, getImage db1 id)

/-- `deleteImage`: `DELETE FROM images WHERE id = ?`; `ON DELETE CASCADE`
drops the image's association rows; returns `meta.changes > 0`. -/
def deleteImage (db : DB) (id : String) : DB × Bool :=
  let remaining := db.images.filter (fun r => !(r.id == id))
  if remaining.length < db.images.length then
    ({ db with images := remaining
               image_tags := db.image_tags.filter (fun it => !(it.image_id == id)) },
     true)
  else (db, false)

structure ImageFilters where
  page : Nat := 1
  limit : Nat := 12
  tag : Option String := none
  orientation : Option Orientation := none
deriving DecidableEq, Repr

/-- The WHERE/JOIN predicate of `getImages`: when `tag` is set the query joins
through `image_tags`/`tags` and requires `t.name = ?` (a row qualifies iff it
has an association to a tag of that name); orientation is an equality test. -/
def imageMatches (db : DB) (tag : Option String) (orient : Option Orientation)
    (r : ImageRow) : Bool :=
  (match tag with
   | none => true
   | some t => db.image_tags.any (fun it =>
       it.image_id == r.id && db.tags.any (fun tg => tg.id == it.tag_id && tg.name == t)))
  && (match orient with
      | none => true
      | some o => decide (r.orientation = o))

/-- `ORDER BY i.upload_time DESC` as a relation on rows. -/
def uploadDesc (a b : ImageRow) : Prop := b.upload_time ≤ a.upload_time

instance : DecidableRel uploadDesc :=
  fun a b => inferInstanceAs (Decidable (b.upload_time ≤ a.upload_time))

instance : IsTotal ImageRow uploadDesc :=
  ⟨fun a b => le_total b.upload_time a.upload_time⟩

instance : IsTrans ImageRow uploadDesc :=
  ⟨fun _ _ _ h1 h2 => le_trans h2 h1⟩

/-- `enrichWithTags` for one row: names of joined association pairs, in
association-row order. -/
def assocTagNames (db : DB) (id : String) : List String :=
  (db.image_tags.filter (fun it => it.image_id == id)).filterMap
    (fun it => (db.tags.find? (fun t => t.id == it.tag_id)).map (fun t => t.name))

/-- `getImages`: `SELECT DISTINCT i.* ... ORDER BY i.upload_time DESC LIMIT ?
OFFSET ?` plus `SELECT COUNT(DISTINCT i.id) ...` under the same predicate.
The sort is a deterministic ordering consistent with `upload_time DESC` (the
engine orders equal keys arbitrarily but identically for the identical query,
which a fixed stable sort models); `offset = (page - 1) * limit` (SQLite
clamps a negative OFFSET to 0, as `Nat` subtraction does). -/
def getImages (db : DB) (f : ImageFilters) : List ImageMetadata × Nat :=
  let matching := db.images.filter (imageMatches db f.tag f.orientation)
  let total := ((matching.map (fun r => r.id)).dedup).length
  let sorted := List.insertionSort uploadDesc matching
  let pageRows := (sorted.drop ((f.page - 1) * f.limit)).take f.limit
  (pageRows.map (fun r => rowToMetadata r (assocTagNames db r.id)), total)

/-- The optional filters of `getRandomImage`; `tags`/`exclude` absent or empty
both skip their clause (`filters?.tags?.length` is falsy for both). -/
structure RandomFilters where
  tags : List String := []
  exclude : List String := []
  orientation : Option Orientation := none
deriving DecidableEq, Repr

/-- The joined tag names of an image that fall in the requested list: the
rows of `JOIN image_tags it ... JOIN tags t ... WHERE t.name IN (tags)`
restricted to one image; `COUNT(DISTINCT t.name)` is `(·.dedup).length`. -/
def matchedTagNames (db : DB) (tagsF : List String) (imgId : String) : List String :=
  (db.tags.filter (fun t =>
    tagsF.contains t.name && db.image_tags.any (fun it =>
      it.image_id == imgId && it.tag_id == t.id))).map (fun t => t.name)

/-- The rows qualifying under `getRandomImage`'s filters: the tag clause is
`GROUP BY i.id HAVING COUNT(DISTINCT t.name) = ?` bound to the raw length of
the supplied list (an image with no joined row forms no group, and its count
0 can never equal the non-empty list's length, so the plain filter is exact);
the exclude clause is `i.id NOT IN (SELECT it2.image_id ... WHERE t2.name IN
(exclude))`, vacuous for an empty exclude list. -/
def randomCandidates (db : DB) (f : RandomFilters) : List ImageRow :=
  db.images.filter (fun i =>
    (if f.tags.isEmpty then true
     else (matchedTagNames db f.tags i.id).dedup.length == f.tags.length)
    && !(db.image_tags.any (fun it =>
        it.image_id == i.id && db.tags.any (fun t =>
          t.id == it.tag_id && f.exclude.contains t.name)))
    && (match f.orientation with
        | none => true
        | some o => decide (i.orientation = o)))

/-- `getRandomImage`: `ORDER BY RANDOM() LIMIT 1` modelled by an oracle index
`r` into the qualifying rows; the chosen row's id is re-read via `getImage`. -/
def getRandomImage (db : DB) (f : RandomFilters) (r : Nat) : Option ImageMetadata :=
  let c := randomCandidates db f
  match c.get? (r % c.length) with
  | none => none
  | some row => getImage db row.id

/-- The count `renameTag` reads first: `SELECT COUNT(*) FROM image_tags it
JOIN tags t ON it.tag_id = t.id WHERE t.name = ?` (joined pairs; tag ids are
unique so each association row joins at most one tag row). -/
def renameTagCount (db : DB) (oldName : String) : Nat :=
  (db.image_tags.filter (fun it =>
    db.tags.any (fun t => t.id == it.tag_id && t.name == oldName))).length

/-- `renameTag`: read the count, then `UPDATE tags SET name = ? WHERE name = ?`.
The UNIQUE constraint on `tags.name` makes the update fail when it would
rewrite a row to a name another row already holds. -/
def renameTag (db : DB) (oldName newName : String) : Except SqlError (DB × Nat) :=
  let c := renameTagCount db oldName
  if tagExists db oldName && tagExists db newName && !(oldName == newName) then
    .error .uniqueViolation
  else
    .ok ({ db with tags := db.tags.map (fun t =>
            if t.name == oldName then { t with name := newName } else t) }, c)

/-- The statement list of `batchUpdateTags`: ensure all added tags exist, then
per image id all removals followed by all `OR IGNORE` association inserts. -/
def batchUpdateTagsStmts (imageIds addTags removeTags : List String) : List Stmt :=
  addTags.map Stmt.insertOrIgnoreTag
  ++ imageIds.flatMap (fun id =>
      removeTags.map (fun t => Stmt.deleteAssoc id t)
      ++ addTags.map (fun t => Stmt.insertOrIgnoreAssocSel id t))

/-- `batchUpdateTags`: one batch over the whole call, returning
`imageIds.length` (the number of ids processed). -/
def batchUpdateTags (db : DB) (imageIds addTags removeTags : List String) :
    Except SqlError (DB × Nat) :=
  match batch (batchUpdateTagsStmts imageIds addTags removeTags) db with
  | .error e => .error e
  | .ok db1 => .ok (db1, imageIds.length)

/-- Schema well-formedness: column/key constraints the storage layer enforces
(`images.id` PRIMARY KEY, `tags.id` PRIMARY KEY AUTOINCREMENT, `tags.name`
UNIQUE, the composite `image_tags` key, both foreign keys, and freshness of
the autoincrement counter). -/
structure WF (db : DB) : Prop where
  imagesNodup : (db.images.map (fun r => r.id)).Nodup
  tagIdsNodup : (db.tags.map (fun t => t.id)).Nodup
  tagNamesNodup : (db.tags.map (fun t => t.name)).Nodup
  assocNodup : db.image_tags.Nodup
  assocImageFK : ∀ it ∈ db.image_tags, imageExists db it.image_id = true
  assocTagFK : ∀ it ∈ db.image_tags, ∃ t ∈ db.tags, t.id = it.tag_id
  tagIdsBound : ∀ t ∈ db.tags, t.id < db.nextTagId

/-! ### Basic observations -/

theorem hasTagNamed_iff (db : DB) (i n : String) :
    hasTagNamed db i n = true ↔
      ∃ t ∈ db.tags, t.name = n ∧
        ∃ it ∈ db.image_tags, it.image_id = i ∧ it.tag_id = t.id := by
  simp only [hasTagNamed, List.any_eq_true, Bool.and_eq_true, beq_iff_eq]

theorem mem_imageTagNames (db : DB) (id n : String) :
    n ∈ imageTagNames db id ↔ hasTagNamed db id n = true := by
  simp only [imageTagNames, hasTagNamed, List.mem_map, List.mem_filter,
    List.any_eq_true, Bool.and_eq_true, beq_iff_eq]
  tauto

theorem imageExists_iff (db : DB) (id : String) :
    imageExists db id = true ↔ ∃ r ∈ db.images, r.id = id := by
  simp only [imageExists, List.any_eq_true, beq_iff_eq]

theorem dedup_length_lt_of_not_nodup {l : List String} (h : ¬ l.Nodup) :
    l.dedup.length < l.length := by
  rcases Nat.lt_or_ge l.dedup.length l.length with hlt | hge
  · exact hlt
  · have heq : l.dedup = l :=
      (List.dedup_sublist l).eq_of_length
        (Nat.le_antisymm ((List.dedup_sublist l).length_le) hge)
    exact absurd (heq ▸ l.nodup_dedup) h

/-! ### C8: deleteImage -/

/-- C8: `deleteImage` returns `true` exactly when an image row with the id
existed (and then removes it together with its cascaded association rows),
and returns `false` leaving the database unchanged when it was absent. -/
theorem deleteImage_spec (db : DB) (id : String) :
    ((deleteImage db id).2 = imageExists db id)
    ∧ (imageExists db id = false → deleteImage db id = (db, false))
    ∧ (imageExists db id = true →
        (deleteImage db id).1.images = db.images.filter (fun r => !(r.id == id))
        ∧ (deleteImage db id).1.image_tags =
            db.image_tags.filter (fun it => !(it.image_id == id))
        ∧ imageExists (deleteImage db id).1 id = false) := by
  have hkey : ((db.images.filter (fun r => !(r.id == id))).length < db.images.length)
      ↔ imageExists db id = true := by
    rw [List.length_filter_lt_length_iff_exists, imageExists_iff]
    simp
  by_cases h : imageExists db id = true
  · have hlt := hkey.mpr h
    refine ⟨?_, ?_, ?_⟩
    · simp [deleteImage, hlt, h]
    · intro hfalse; simp [h] at hfalse
    · intro _
      refine ⟨by simp [deleteImage, hlt], by simp [deleteImage, hlt], ?_⟩
      simp [deleteImage, hlt, imageExists]
  · have hlt : ¬ ((db.images.filter (fun r => !(r.id == id))).length < db.images.length) :=
      fun hc => h (hkey.mp hc)
    have hfalse : imageExists db id = false := by
      cases he : imageExists db id
      · rfl
      · exact absurd he h
    refine ⟨?_, ?_, ?_⟩
    · simp [deleteImage, hlt, hfalse]
    · intro _; simp [deleteImage, hlt]
    · intro htrue; rw [htrue] at hfalse; cases hfalse

theorem deleteImage_spec_witness :
    (imageExists { images := [], tags := [], image_tags := [], nextTagId := 0 } "z" = false)
    ∧ deleteImage { images := [], tags := [], image_tags := [], nextTagId := 0 } "z" =
        ({ images := [], tags := [], image_tags := [], nextTagId := 0 }, false) :=
  ⟨by decide,
   (deleteImage_spec { images := [], tags := [], image_tags := [], nextTagId := 0 } "z").2.1
     (by decide)⟩

/-! ### C1 / C9: getRandomImage tag semantics -/

theorem matchedTagNames_subset (db : DB) (ts : List String) (i : String) :
    ∀ n ∈ matchedTagNames db ts i, n ∈ ts := by
  intro n hn
  simp only [matchedTagNames, List.mem_map, List.mem_filter, Bool.and_eq_true] at hn
  obtain ⟨t, ⟨_, hc, _⟩, rfl⟩ := hn
  simpa using hc

theorem matched_dedup_le (db : DB) (ts : List String) (i : String) :
    (matchedTagNames db ts i).dedup.length ≤ ts.dedup.length := by
  rw [← List.card_toFinset, ← List.card_toFinset]
  refine Finset.card_le_card ?_
  intro n hn
  rw [List.mem_toFinset] at hn ⊢
  exact matchedTagNames_subset db ts i n hn

/-- C9: a tags filter containing a duplicate name can never be satisfied —
the HAVING clause compares the distinct-name count with the raw list length —
so `getRandomImage` returns the not-found signal on every database. -/
theorem getRandomImage_duplicate_tags (db : DB) (ts excl : List String)
    (o : Option Orientation) (r : Nat) (hne : ts ≠ []) (hdup : ¬ ts.Nodup) :
    getRandomImage db { tags := ts, exclude := excl, orientation := o } r = none := by
  have hE : ts.isEmpty = false := by
    cases hft : ts with
    | nil => exact absurd hft hne
    | cons a l => rfl
  have hcand : randomCandidates db { tags := ts, exclude := excl, orientation := o } = [] := by
    unfold randomCandidates
    rw [List.filter_eq_nil_iff]
    intro i _
    have hlt : (matchedTagNames db ts i.id).dedup.length < ts.length :=
      lt_of_le_of_lt (matched_dedup_le db ts i.id) (dedup_length_lt_of_not_nodup hdup)
    have hbeq : ((matchedTagNames db ts i.id).dedup.length == ts.length) = false := by
      simp [Nat.ne_of_lt hlt]
    simp [hE, hbeq]
  simp [getRandomImage, hcand]

theorem getRandomImage_duplicate_tags_witness :
    (["cat", "cat"] ≠ ([] : List String) ∧ ¬ (["cat", "cat"] : List String).Nodup)
    ∧ getRandomImage
        { images := [{ id := "img1", original_name := "a.png",
                       upload_time := "2024-01-01", expiry_time := none,
                       orientation := .landscape, format := "png", width := 2, height := 1,
                       path_original := "o", path_webp := none, path_avif := none,
                       size_original := 10, size_webp := 0, size_avif := 0 }],
          tags := [⟨0, "cat"⟩], image_tags := [⟨"img1", 0⟩], nextTagId := 1 }
        { tags := ["cat", "cat"] } 0 = none :=
  ⟨⟨by decide, by decide⟩,
   getRandomImage_duplicate_tags _ _ [] none 0 (by decide) (by decide)⟩

/-- C1: with a non-empty tags filter, any image `getRandomImage` returns is
associated with every tag name in the list (AND-semantics). -/
theorem getRandomImage_and_semantics (db : DB) (f : RandomFilters) (r : Nat)
    (md : ImageMetadata) (hne : f.tags ≠ [])
    (h : getRandomImage db f r = some md) :
    ∀ name ∈ f.tags, hasTagNamed db md.id name = true := by
  intro name hname
  simp only [getRandomImage] at h
  cases hget : (randomCandidates db f).get? (r % (randomCandidates db f).length) with
  | none => rw [hget] at h; simp at h
  | some row =>
    rw [hget] at h
    simp only at h
    have hrowmem : row ∈ randomCandidates db f := List.get?_mem hget
    have hmdid : md.id = row.id := by
      unfold getImage at h
      cases hfind : db.images.find? (fun rr => rr.id == row.id) with
      | none => rw [hfind] at h; simp at h
      | some row2 =>
        rw [hfind] at h
        have hmd : rowToMetadata row2 (imageTagNames db row.id) = md := by
          simpa using h
        have hid : row2.id = row.id := by
          simpa [beq_iff_eq] using List.find?_some hfind
        rw [← hmd]
        exact hid
    rw [hmdid]
    have hE : f.tags.isEmpty = false := by
      cases hft : f.tags with
      | nil => exact absurd hft hne
      | cons a l => rfl
    simp only [randomCandidates, List.mem_filter, Bool.and_eq_true, hE] at hrowmem
    obtain ⟨-, ⟨⟨hA, -⟩, -⟩⟩ := hrowmem
    rw [if_neg (by simp)] at hA
    have hcount : (matchedTagNames db f.tags row.id).dedup.length = f.tags.length := by
      simpa using hA
    have hsub : (matchedTagNames db f.tags row.id).toFinset ⊆ f.tags.toFinset := by
      intro n hn
      rw [List.mem_toFinset] at hn ⊢
      exact matchedTagNames_subset db f.tags row.id n hn
    have hcardle : f.tags.toFinset.card ≤ (matchedTagNames db f.tags row.id).toFinset.card := by
      have h1 : (matchedTagNames db f.tags row.id).toFinset.card = f.tags.length := by
        rw [List.card_toFinset]; exact hcount
      rw [h1]
      exact List.toFinset_card_le _
    have heqF : (matchedTagNames db f.tags row.id).toFinset = f.tags.toFinset :=
      Finset.eq_of_subset_of_card_le hsub hcardle
    have hmemM : name ∈ matchedTagNames db f.tags row.id := by
      rw [← List.mem_toFinset, heqF, List.mem_toFinset]
      exact hname
    simp only [matchedTagNames, List.mem_map, List.mem_filter, Bool.and_eq_true] at hmemM
    obtain ⟨t, ⟨htmem, -, hassoc⟩, rfl⟩ := hmemM
    rw [hasTagNamed_iff]
    refine ⟨t, htmem, rfl, ?_⟩
    simpa [Bool.and_eq_true, beq_iff_eq] using hassoc

/-! ### Concrete fixtures for witnesses -/

def img1row : ImageRow :=
  { id := "img1", original_name := "a.png", upload_time := "2024-01-01",
    expiry_time := some "2025-01-01", orientation := .landscape, format := "png",
    width := 2, height := 1, path_original := "o", path_webp := some "w",
    path_avif := some "v", size_original := 10, size_webp := 5, size_avif := 4 }

def dbW : DB :=
  { images := [img1row], tags := [⟨0, "cat"⟩, ⟨1, "orange"⟩],
    image_tags := [⟨"img1", 0⟩, ⟨"img1", 1⟩], nextTagId := 2 }

def mdW : ImageMetadata := rowToMetadata img1row ["cat", "orange"]

theorem getRandomImage_and_semantics_witness :
    ((["cat", "orange"] : List String) ≠ []
     ∧ getRandomImage dbW { tags := ["cat", "orange"] } 0 = some mdW)
    ∧ ∀ name ∈ ["cat", "orange"], hasTagNamed dbW mdW.id name = true :=
  ⟨⟨by decide, by decide⟩,
   getRandomImage_and_semantics dbW { tags := ["cat", "orange"] } 0 mdW
     (by decide) (by decide)⟩

/-! ### C7: updateImage write behavior on unchanged values -/

/-- C7 counterexample: the image's stored expiry is `"2025-01-01"`; calling
`updateImage` with that same `expiryTime` (an update containing only unchanged
values) still puts an UPDATE statement in the batch — the claimed "no batch
statement executes" is false — although the stored record stays unchanged. -/
theorem updateImage_unchanged_expiry_cex :
    (getImage dbW "img1").map (fun m => m.expiryTime) = some (some "2025-01-01")
    ∧ updateImagePlan dbW "img1" { expiryTime := some "2025-01-01" } =
        [Stmt.updateExpiry (some "2025-01-01") "img1"]
    ∧ updateImage dbW "img1" { expiryTime := some "2025-01-01" } =
        .ok (dbW, getImage dbW "img1") :=
  ⟨by decide, by decide, by rfl⟩

theorem mem_firstDedup (l : List String) (a : String) : a ∈ firstDedup l ↔ a ∈ l := by
  induction l using firstDedup.induct with
  | case1 => simp [firstDedup]
  | case2 b l ih =>
    rw [firstDedup]
    by_cases hab : a = b
    · subst hab; simp
    · simp only [List.mem_cons, hab, false_or]
      rw [ih]
      simp [List.mem_filter, hab]

theorem updateImageStmts_same_tags (id : String) (cur ts : List String)
    (hset : ∀ n, n ∈ ts ↔ n ∈ cur) :
    updateImageStmts id cur { tags := some ts } = [] := by
  simp only [updateImageStmts, List.append_eq_nil, List.flatMap_eq_nil_iff,
    List.map_eq_nil_iff, List.filter_eq_nil_iff]
  refine ⟨⟨?_, ?_⟩, ?_⟩
  · intro a ha
    simp only [Bool.not_eq_true', Bool.not_eq_false]
    exact List.elem_eq_true_of_mem ((hset a).mpr ((mem_firstDedup cur a).mp ha))
  · intro a ha
    rw [List.mem_filter] at ha
    obtain ⟨hmem, hnc⟩ := ha
    have : a ∈ cur := (hset a).mp ((mem_firstDedup ts a).mp hmem)
    simp only [Bool.not_eq_true', Bool.not_eq_false] at hnc
    exact absurd this (by simpa using hnc)
  · trivial

theorem applyUpdateExpiry_self (db : DB) (id : String) (e : Option String)
    (hNodup : (db.images.map (fun r => r.id)).Nodup)
    (row : ImageRow) (hfind : db.images.find? (fun r => r.id == id) = some row)
    (hexp : row.expiry_time = e) :
    applyUpdateExpiry db e id = db := by
  unfold applyUpdateExpiry
  have hrowid : row.id = id := by simpa [beq_iff_eq] using List.find?_some hfind
  have hrowmem : row ∈ db.images := List.mem_of_find?_eq_some hfind
  have hfix : ∀ r ∈ db.images,
      (if r.id == id then { r with expiry_time := e } else r) = r := by
    intro r hr
    by_cases h : r.id = id
    · have hr2 : r = row :=
        List.inj_on_of_nodup_map hNodup hr hrowmem (by rw [h, hrowid])
      subst hr2
      rw [← hexp]
      have hcond : (r.id == id) = true := by simp [h]
      rw [if_pos hcond]
    · simp [h]
  have : db.images.map (fun r => if r.id == id then { r with expiry_time := e } else r)
      = db.images := by
    rw [List.map_congr_left hfix]
    simp
  rw [this]

/-- C7 (amended): when the update supplies only a tag set equal to the current
one, no statement is issued (an actual no-op); but when `expiryTime` is
supplied, an UPDATE statement always enters the batch even if the value equals
the stored one — in that case the write is issued and leaves the record
unchanged. -/
theorem updateImage_unchanged_values (db : DB) (id : String) (img : ImageMetadata)
    (hWF : WF db) (himg : getImage db id = some img) :
    (∀ ts, ts.toFinset = img.tags.toFinset →
        updateImagePlan db id { tags := some ts } = []
        ∧ updateImage db id { tags := some ts } = .ok (db, some img))
    ∧ (∀ e row, db.images.find? (fun r => r.id == id) = some row →
        row.expiry_time = strToNull e →
        updateImagePlan db id { tags := none, expiryTime := some e } =
          [Stmt.updateExpiry (strToNull e) id]
        ∧ updateImage db id { tags := none, expiryTime := some e } =
            .ok (db, some img)) := by
  constructor
  · intro ts hts
    have hset : ∀ n, n ∈ ts ↔ n ∈ img.tags := by
      intro n
      rw [← List.mem_toFinset, hts, List.mem_toFinset]
    have hstmts := updateImageStmts_same_tags id img.tags ts hset
    constructor
    · simp [updateImagePlan, himg, hstmts]
    · simp [updateImage, himg, hstmts]
  · intro e row hfind hexp
    have hstmts : updateImageStmts id img.tags { tags := none, expiryTime := some e }
        = [Stmt.updateExpiry (strToNull e) id] := by
      simp [updateImageStmts]
    have happly := applyUpdateExpiry_self db id (strToNull e) hWF.imagesNodup row hfind hexp
    constructor
    · simp [updateImagePlan, himg, hstmts]
    · simp [updateImage, himg, hstmts, batch, execStmt, happly]

theorem updateImage_unchanged_values_witness :
    (getImage dbW "img1" = some mdW)
    ∧ ((∀ ts, ts.toFinset = mdW.tags.toFinset →
          updateImagePlan dbW "img1" { tags := some ts } = []
          ∧ updateImage dbW "img1" { tags := some ts } = .ok (dbW, some mdW))
       ∧ (∀ e row, dbW.images.find? (fun r => r.id == "img1") = some row →
            row.expiry_time = strToNull e →
            updateImagePlan dbW "img1" { tags := none, expiryTime := some e } =
              [Stmt.updateExpiry (strToNull e) "img1"]
            ∧ updateImage dbW "img1" { tags := none, expiryTime := some e } =
                .ok (dbW, some mdW))) :=
  ⟨by decide,
   updateImage_unchanged_values dbW "img1" mdW (by constructor <;> decide) (by decide)⟩

/-! ### Per-statement facts -/

theorem applyInsertOrIgnoreTag_images (db : DB) (n : String) :
    (applyInsertOrIgnoreTag db n).images = db.images := by
  unfold applyInsertOrIgnoreTag
  split <;> rfl

theorem applyInsertOrIgnoreTag_assocs (db : DB) (n : String) :
    (applyInsertOrIgnoreTag db n).image_tags = db.image_tags := by
  unfold applyInsertOrIgnoreTag
  split <;> rfl

theorem tagExists_applyInsertOrIgnoreTag_self (db : DB) (n : String) :
    tagExists (applyInsertOrIgnoreTag db n) n = true := by
  unfold applyInsertOrIgnoreTag
  by_cases h : tagExists db n
  · rwa [if_pos h]
  · rw [if_neg h]
    simp [tagExists]

theorem tagExists_mono_applyInsertOrIgnoreTag (db : DB) (n x : String)
    (h : tagExists db x = true) :
    tagExists (applyInsertOrIgnoreTag db n) x = true := by
  unfold applyInsertOrIgnoreTag
  by_cases hc : tagExists db n
  · rwa [if_pos hc]
  · rw [if_neg hc]
    simp only [tagExists, List.any_append, Bool.or_eq_true]
    exact Or.inl h

theorem hasTagNamed_mono_applyInsertOrIgnoreTag (db : DB) (n j x : String)
    (h : hasTagNamed db j x = true) :
    hasTagNamed (applyInsertOrIgnoreTag db n) j x = true := by
  unfold applyInsertOrIgnoreTag
  by_cases hc : tagExists db n
  · rwa [if_pos hc]
  · rw [if_neg hc]
    simp only [hasTagNamed, List.any_append, Bool.or_eq_true]
    exact Or.inl h

theorem hasTagNamed_mono_of (db db' : DB) (j x : String)
    (htags : db'.tags = db.tags)
    (hsub : ∀ it ∈ db.image_tags, it ∈ db'.image_tags)
    (h : hasTagNamed db j x = true) :
    hasTagNamed db' j x = true := by
  rw [hasTagNamed_iff] at h ⊢
  obtain ⟨t, ht, hn, it, hit, hi⟩ := h
  exact ⟨t, htags ▸ ht, hn, it, hsub it hit, hi⟩

theorem insertAssocRows_ok_fields :
    ∀ (tids : List Nat) (og : Bool) (i : String) (db db' : DB),
    insertAssocRows og i tids db = .ok db' →
    db'.images = db.images ∧ db'.tags = db.tags
    ∧ ∀ it ∈ db.image_tags, it ∈ db'.image_tags := by
  intro tids
  induction tids with
  | nil =>
    intro og i db db' h
    simp only [insertAssocRows, Except.ok.injEq] at h
    subst h
    exact ⟨rfl, rfl, fun it hit => hit⟩
  | cons tid rest ih =>
    intro og i db db' h
    simp only [insertAssocRows] at h
    by_cases hi : imageExists db i
    · rw [if_pos hi] at h
      by_cases hp : db.image_tags.any (fun it => it.image_id == i && it.tag_id == tid)
      · rw [if_pos hp] at h
        cases og with
        | true => exact ih true i db db' h
        | false => simp at h
      · rw [if_neg hp] at h
        have hrec := ih og i _ db' h
        exact ⟨hrec.1, hrec.2.1,
          fun it hit => hrec.2.2 it (by simp [hit])⟩
    · rw [if_neg hi] at h
      simp at h

theorem insertAssocRows_ok_inserted :
    ∀ (tids : List Nat) (i : String) (db db' : DB),
    insertAssocRows false i tids db = .ok db' →
    ∀ tid ∈ tids, (⟨i, tid⟩ : ImageTagRow) ∈ db'.image_tags := by
  intro tids
  induction tids with
  | nil => intro i db db' _ tid h; cases h
  | cons tid0 rest ih =>
    intro i db db' h tid htid
    simp only [insertAssocRows] at h
    by_cases hi : imageExists db i
    · rw [if_pos hi] at h
      by_cases hp : db.image_tags.any (fun it => it.image_id == i && it.tag_id == tid0)
      · rw [if_pos hp] at h; simp at h
      · rw [if_neg hp] at h
        rcases List.mem_cons.mp htid with heq | hmem
        · subst heq
          exact (insertAssocRows_ok_fields rest false i _ db' h).2.2 ⟨i, tid⟩ (by simp)
        · exact ih i _ db' h tid hmem
    · rw [if_neg hi] at h; simp at h

theorem insertAssocRows_error_of_mem :
    ∀ (tids : List Nat) (i : String) (db : DB),
    (∃ tid ∈ tids, (⟨i, tid⟩ : ImageTagRow) ∈ db.image_tags) →
    ∃ e, insertAssocRows false i tids db = .error e := by
  intro tids
  induction tids with
  | nil => intro i db h; simp at h
  | cons tid0 rest ih =>
    intro i db h
    by_cases hi : imageExists db i
    · by_cases hp : db.image_tags.any (fun it => it.image_id == i && it.tag_id == tid0)
      · refine ⟨.uniqueViolation, ?_⟩
        simp only [insertAssocRows]
        rw [if_pos hi, if_pos hp]
        rfl
      · obtain ⟨tid, htid, hmem⟩ := h
        rcases List.mem_cons.mp htid with heq | hrest
        · subst heq
          exact absurd (List.any_eq_true.mpr ⟨⟨i, tid⟩, hmem, by simp⟩) hp
        · obtain ⟨e, he⟩ := ih i { db with image_tags := db.image_tags ++ [⟨i, tid0⟩] }
            ⟨tid, hrest, by simp [hmem]⟩
          refine ⟨e, ?_⟩
          simp only [insertAssocRows]
          rw [if_pos hi, if_neg hp]
          exact he
    · refine ⟨.fkViolation, ?_⟩
      simp only [insertAssocRows]
      rw [if_neg hi]

theorem execStmt_insertAssocSel_ok (i n : String) (db db' : DB)
    (h : execStmt (.insertAssocSel i n) db = .ok db') :
    db'.images = db.images ∧ db'.tags = db.tags
    ∧ (∀ it ∈ db.image_tags, it ∈ db'.image_tags)
    ∧ (tagExists db n = true → hasTagNamed db' i n = true) := by
  simp only [execStmt] at h
  have hf := insertAssocRows_ok_fields _ false i db db' h
  refine ⟨hf.1, hf.2.1, hf.2.2, ?_⟩
  intro hex
  rw [tagExists, List.any_eq_true] at hex
  obtain ⟨t, ht, hn⟩ := hex
  have htid : t.id ∈ (db.tags.filter (fun t => t.name == n)).map (fun t => t.id) :=
    List.mem_map.mpr ⟨t, List.mem_filter.mpr ⟨ht, hn⟩, rfl⟩
  have hins := insertAssocRows_ok_inserted _ i db db' h t.id htid
  rw [hasTagNamed_iff]
  exact ⟨t, hf.2.1 ▸ ht, by simpa using hn, ⟨i, t.id⟩, hins, rfl, rfl⟩

theorem execStmt_insertAssocSel_error (i n : String) (db : DB)
    (h : hasTagNamed db i n = true) :
    ∃ e, execStmt (.insertAssocSel i n) db = .error e := by
  simp only [execStmt]
  rw [hasTagNamed_iff] at h
  obtain ⟨t, ht, hn, it, hit, hiti, hitt⟩ := h
  refine insertAssocRows_error_of_mem _ i db ⟨t.id, ?_, ?_⟩
  · exact List.mem_map.mpr ⟨t, List.mem_filter.mpr ⟨ht, by simp [hn]⟩, rfl⟩
  · have : it = ⟨i, t.id⟩ := by
      cases it
      simp_all
    exact this ▸ hit

/-! ### The saveImage tag fold -/

theorem batch_cons_ok (s : Stmt) (rest : List Stmt) (db db' : DB) :
    batch (s :: rest) db = .ok db' ↔
      ∃ db1, execStmt s db = .ok db1 ∧ batch rest db1 = .ok db' := by
  show (match execStmt s db with
        | .ok db1 => batch rest db1
        | .error e => .error e) = .ok db' ↔ _
  cases hex : execStmt s db with
  | ok db1 => simp
  | error e => simp

theorem saveImage_fold (i : String) :
    ∀ (ts : List String) (db db' : DB),
    batch (ts.flatMap (fun t =>
      [Stmt.insertOrIgnoreTag t, Stmt.insertAssocSel i t])) db = .ok db' →
    db'.images = db.images
    ∧ (∀ x, tagExists db x = true → tagExists db' x = true)
    ∧ (∀ j x, hasTagNamed db j x = true → hasTagNamed db' j x = true)
    ∧ (∀ t ∈ ts, tagExists db' t = true ∧ hasTagNamed db' i t = true)
    ∧ ts.Nodup
    ∧ (∀ t ∈ ts, hasTagNamed db i t = false) := by
  intro ts
  induction ts with
  | nil =>
    intro db db' h
    simp only [List.flatMap_nil, batch, Except.ok.injEq] at h
    subst h
    exact ⟨rfl, fun _ h => h, fun _ _ h => h, by simp, List.nodup_nil, by simp⟩
  | cons t ts ih =>
    intro db db' h
    simp only [List.flatMap_cons, List.cons_append, List.nil_append] at h
    rw [batch_cons_ok] at h
    obtain ⟨dbA', hA, h⟩ := h
    simp only [execStmt, Except.ok.injEq] at hA
    subst hA
    set dbA := applyInsertOrIgnoreTag db t with hdbA
    rw [batch_cons_ok] at h
    obtain ⟨dbB, hB, h⟩ := h
    -- h : batch over the remaining tags from dbB; hB : the association insert
    have hBf := execStmt_insertAssocSel_ok i t dbA dbB hB
    have hAt : tagExists dbA t = true := tagExists_applyInsertOrIgnoreTag_self db t
    have hBt : hasTagNamed dbB i t = true := hBf.2.2.2 hAt
    have hAfalse : hasTagNamed dbA i t = false := by
      cases hcase : hasTagNamed dbA i t with
      | false => rfl
      | true =>
        obtain ⟨e, he⟩ := execStmt_insertAssocSel_error i t dbA hcase
        rw [he] at hB; cases hB
    have hdbfalse : hasTagNamed db i t = false := by
      cases hcase : hasTagNamed db i t with
      | false => rfl
      | true =>
        rw [hasTagNamed_mono_applyInsertOrIgnoreTag db t i t hcase] at hAfalse
        cases hAfalse
    obtain ⟨ih1, ih2, ih3, ih4, ih5, ih6⟩ := ih dbB db' h
    have hmonoAB : ∀ j x, hasTagNamed db j x = true → hasTagNamed dbB j x = true := by
      intro j x hx
      exact hasTagNamed_mono_of dbA dbB j x hBf.2.1 hBf.2.2.1
        (hasTagNamed_mono_applyInsertOrIgnoreTag db t j x hx)
    have htagAB : ∀ x, tagExists db x = true → tagExists dbB x = true := by
      intro x hx
      have : tagExists dbA x = true := tagExists_mono_applyInsertOrIgnoreTag db t x hx
      rw [tagExists] at this ⊢
      rw [hBf.2.1]
      exact this
    refine ⟨?_, ?_, ?_, ?_, ?_, ?_⟩
    · rw [ih1, hBf.1, applyInsertOrIgnoreTag_images]
    · intro x hx; exact ih2 x (htagAB x hx)
    · intro j x hx; exact ih3 j x (hmonoAB j x hx)
    · intro u hu
      rcases List.mem_cons.mp hu with heq | hmem
      · subst heq
        refine ⟨ih2 u ?_, ih3 i u hBt⟩
        rw [tagExists, hBf.2.1]
        exact hAt
      · exact ih4 u hmem
    · rw [List.nodup_cons]
      refine ⟨?_, ih5⟩
      intro hmem
      rw [ih6 t hmem] at hBt
      cases hBt
    · intro u hu
      rcases List.mem_cons.mp hu with heq | hmem
      · subst heq; exact hdbfalse
      · cases hcase : hasTagNamed db i u with
        | false => rfl
        | true =>
          have h1 := hmonoAB i u hcase
          rw [ih6 u hmem] at h1
          cases h1

/-! ### C2: saveImage atomic batch -/

/-- C2: `saveImage` runs one atomic batch.  On success the image row and
every tag and association are all present (the batch applied in full); when
the id already exists the first statement violates the `images` primary key
and the whole call fails with the propagated error — and since a failed
`batch` returns no state (D1 rolls the transaction back), no partial state is
observable by the caller. -/
theorem saveImage_spec (db : DB) (m : ImageMetadata) :
    (∀ db', saveImage db m = .ok db' →
        db'.images = db.images ++ [metaToRow m]
        ∧ imageExists db' m.id = true
        ∧ ∀ t ∈ m.tags, tagExists db' t = true ∧ hasTagNamed db' m.id t = true)
    ∧ (imageExists db m.id = true → saveImage db m = .error .uniqueViolation) := by
  constructor
  · intro db' h
    simp only [saveImage, saveImageStmts, batch, execStmt] at h
    by_cases hex : imageExists db m.id
    · rw [if_pos hex] at h; simp at h
    · rw [if_neg hex] at h
      have hfold := saveImage_fold m.id m.tags _ db' h
      refine ⟨by rw [hfold.1], ?_, hfold.2.2.2.1⟩
      rw [imageExists, List.any_eq_true]
      refine ⟨metaToRow m, ?_, by simp [metaToRow]⟩
      rw [hfold.1]
      simp
  · intro hex
    simp [saveImage, saveImageStmts, batch, execStmt, hex]

theorem saveImage_spec_witness :
    (saveImage { images := [], tags := [], image_tags := [], nextTagId := 0 } mdW
        = .ok dbW
     ∧ dbW.images = [] ++ [metaToRow mdW]
     ∧ imageExists dbW mdW.id = true
     ∧ ∀ t ∈ mdW.tags, tagExists dbW t = true ∧ hasTagNamed dbW mdW.id t = true)
    ∧ (imageExists dbW mdW.id = true
       ∧ saveImage dbW mdW = .error .uniqueViolation) :=
  ⟨⟨by rfl,
    (saveImage_spec { images := [], tags := [], image_tags := [], nextTagId := 0 } mdW).1
      dbW (by rfl)⟩,
   ⟨by decide, (saveImage_spec dbW mdW).2 (by decide)⟩⟩

/-! ### C10: duplicate tag names in saveImage -/

/-- C10: a duplicated name in the record's tag list makes the second plain
association insert hit the `(image_id, tag_id)` primary key, so the whole
batch fails (and, the batch being transactional, nothing from the call
persists); `saveImage` can only succeed when the tag list is duplicate-free. -/
theorem saveImage_duplicate_tag (db : DB) (m : ImageMetadata) :
    (¬ m.tags.Nodup → ∃ e, saveImage db m = .error e)
    ∧ (∀ db', saveImage db m = .ok db' → m.tags.Nodup) := by
  have hok : ∀ db', saveImage db m = .ok db' → m.tags.Nodup := by
    intro db' h
    simp only [saveImage, saveImageStmts, batch, execStmt] at h
    by_cases hex : imageExists db m.id
    · rw [if_pos hex] at h; simp at h
    · rw [if_neg hex] at h
      exact (saveImage_fold m.id m.tags _ db' h).2.2.2.2.1
  refine ⟨?_, hok⟩
  intro hdup
  cases hres : saveImage db m with
  | ok db' => exact absurd (hok db' hres) hdup
  | error e => exact ⟨e, rfl⟩

theorem saveImage_duplicate_tag_witness :
    (¬ (["x", "x"] : List String).Nodup)
    ∧ ∃ e, saveImage { images := [], tags := [], image_tags := [], nextTagId := 0 }
        { mdW with tags := ["x", "x"] } = .error e :=
  ⟨by decide,
   (saveImage_duplicate_tag { images := [], tags := [], image_tags := [], nextTagId := 0 }
      { mdW with tags := ["x", "x"] }).1 (by decide)⟩

/-! ### Characterizations under schema well-formedness -/

theorem imageExists_congr (db db' : DB) (h : db'.images = db.images) (x : String) :
    imageExists db' x = imageExists db x := by
  rw [imageExists, imageExists, h]

theorem tagExists_iff (db : DB) (n : String) :
    tagExists db n = true ↔ ∃ t ∈ db.tags, t.name = n := by
  simp [tagExists, List.any_eq_true, beq_iff_eq]

theorem tagExists_applyInsertOrIgnoreTag_iff (db : DB) (n x : String) :
    tagExists (applyInsertOrIgnoreTag db n) x = true ↔
      (tagExists db x = true ∨ x = n) := by
  unfold applyInsertOrIgnoreTag
  by_cases hc : tagExists db n
  · rw [if_pos hc]
    constructor
    · exact Or.inl
    · rintro (h | rfl)
      · exact h
      · exact hc
  · rw [if_neg hc]
    rw [tagExists_iff] at hc ⊢
    rw [tagExists_iff]
    constructor
    · rintro ⟨t, ht, rfl⟩
      rcases List.mem_append.mp ht with h | h
      · exact Or.inl ⟨t, h, rfl⟩
      · simp at h
        subst h
        exact Or.inr rfl
    · rintro (⟨t, ht, rfl⟩ | rfl)
      · exact ⟨t, List.mem_append_left _ ht, rfl⟩
      · exact ⟨⟨db.nextTagId, x⟩, List.mem_append_right _ (by simp), rfl⟩

/-- Under WF, a freshly created tag row carries no associations, so
`insertOrIgnoreTag` never changes which images have which tag names. -/
theorem hasTagNamed_applyInsertOrIgnoreTag_iff (db : DB) (hWF : WF db) (n j x : String) :
    hasTagNamed (applyInsertOrIgnoreTag db n) j x = true ↔ hasTagNamed db j x = true := by
  unfold applyInsertOrIgnoreTag
  by_cases hc : tagExists db n
  · rw [if_pos hc]
  · rw [if_neg hc]
    rw [hasTagNamed_iff, hasTagNamed_iff]
    constructor
    · rintro ⟨t, ht, hn, it, hit, hi, htid⟩
      rcases List.mem_append.mp ht with h | h
      · exact ⟨t, h, hn, it, hit, hi, htid⟩
      · simp at h
        subst h
        obtain ⟨t2, ht2, hid2⟩ := hWF.assocTagFK it hit
        have hlt : it.tag_id < db.nextTagId := hid2 ▸ hWF.tagIdsBound t2 ht2
        rw [htid] at hlt
        simp at hlt
    · rintro ⟨t, ht, hn, it, hit, hi, htid⟩
      exact ⟨t, List.mem_append_left _ ht, hn, it, hit, hi, htid⟩

theorem WF_applyInsertOrIgnoreTag (db : DB) (n : String) (hWF : WF db) :
    WF (applyInsertOrIgnoreTag db n) := by
  unfold applyInsertOrIgnoreTag
  by_cases hc : tagExists db n
  · rwa [if_pos hc]
  · rw [if_neg hc]
    refine ⟨hWF.imagesNodup, ?_, ?_, hWF.assocNodup, ?_, ?_, ?_⟩
    · rw [List.map_append, List.nodup_append]
      refine ⟨hWF.tagIdsNodup, by simp, ?_⟩
      intro a ha hb
      simp at hb
      rw [List.mem_map] at ha
      obtain ⟨t, ht, rfl⟩ := ha
      exact absurd hb (Nat.ne_of_lt (hWF.tagIdsBound t ht))
    · rw [List.map_append, List.nodup_append]
      refine ⟨hWF.tagNamesNodup, by simp, ?_⟩
      intro a ha hb
      simp at hb
      rw [List.mem_map] at ha
      obtain ⟨t, ht, hname⟩ := ha
      exact hc ((tagExists_iff db _).mpr ⟨t, ht, hname.trans hb⟩)
    · intro it hit
      exact hWF.assocImageFK it hit
    · intro it hit
      obtain ⟨t, ht, hid⟩ := hWF.assocTagFK it hit
      exact ⟨t, List.mem_append_left _ ht, hid⟩
    · intro t ht
      rcases List.mem_append.mp ht with h | h
      · exact Nat.lt_succ_of_lt (hWF.tagIdsBound t h)
      · simp at h
        subst h
        exact Nat.lt_succ_self _

theorem applyDeleteAssoc_images (db : DB) (i n : String) :
    (applyDeleteAssoc db i n).images = db.images := by
  unfold applyDeleteAssoc
  split <;> rfl

theorem applyDeleteAssoc_tags (db : DB) (i n : String) :
    (applyDeleteAssoc db i n).tags = db.tags := by
  unfold applyDeleteAssoc
  split <;> rfl

theorem applyDeleteAssoc_nextTagId (db : DB) (i n : String) :
    (applyDeleteAssoc db i n).nextTagId = db.nextTagId := by
  unfold applyDeleteAssoc
  split <;> rfl

theorem WF_applyDeleteAssoc (db : DB) (i n : String) (hWF : WF db) :
    WF (applyDeleteAssoc db i n) := by
  unfold applyDeleteAssoc
  cases hfind : db.tags.find? (fun t => t.name == n) with
  | none => exact hWF
  | some t0 =>
    refine ⟨hWF.imagesNodup, hWF.tagIdsNodup, hWF.tagNamesNodup, ?_, ?_, ?_, hWF.tagIdsBound⟩
    · exact hWF.assocNodup.sublist (List.filter_sublist _)
    · intro it hit
      exact hWF.assocImageFK it (List.mem_of_mem_filter hit)
    · intro it hit
      exact hWF.assocTagFK it (List.mem_of_mem_filter hit)

theorem hasTagNamed_applyDeleteAssoc_iff (db : DB) (hWF : WF db) (i n j x : String) :
    hasTagNamed (applyDeleteAssoc db i n) j x = true ↔
      (hasTagNamed db j x = true ∧ ¬(j = i ∧ x = n)) := by
  unfold applyDeleteAssoc
  cases hfind : db.tags.find? (fun t => t.name == n) with
  | none =>
    have hno : ∀ t ∈ db.tags, t.name ≠ n := by
      intro t ht hname
      have := List.find?_eq_none.mp hfind t ht
      simp [hname] at this
    constructor
    · intro h
      refine ⟨h, ?_⟩
      rintro ⟨rfl, rfl⟩
      rw [hasTagNamed_iff] at h
      obtain ⟨t, ht, hname, -⟩ := h
      exact hno t ht hname
    · exact fun h => h.1
  | some t0 =>
    have ht0mem : t0 ∈ db.tags := List.mem_of_find?_eq_some hfind
    have ht0name : t0.name = n := by simpa [beq_iff_eq] using List.find?_some hfind
    rw [hasTagNamed_iff, hasTagNamed_iff]
    constructor
    · rintro ⟨t, ht, hn, it, hit, hi, htid⟩
      have hitmem : it ∈ db.image_tags := List.mem_of_mem_filter hit
      have hsurv := List.of_mem_filter hit
      refine ⟨⟨t, ht, hn, it, hitmem, hi, htid⟩, ?_⟩
      rintro ⟨rfl, rfl⟩
      have hteq : t = t0 :=
        List.inj_on_of_nodup_map hWF.tagNamesNodup ht ht0mem (hn.trans ht0name.symm)
      rw [Bool.not_eq_true', Bool.and_eq_false_iff] at hsurv
      rcases hsurv with h | h
      · rw [beq_eq_false_iff_ne] at h
        exact h hi
      · rw [beq_eq_false_iff_ne] at h
        exact h (htid ▸ congrArg TagRow.id hteq)
    · rintro ⟨⟨t, ht, hn, it, hit, hi, htid⟩, hneg⟩
      refine ⟨t, ht, hn, it, List.mem_filter.mpr ⟨hit, ?_⟩, hi, htid⟩
      rw [Bool.not_eq_true', Bool.and_eq_false_iff]
      by_cases hji : it.image_id = i
      · right
        rw [beq_eq_false_iff_ne]
        intro hteq0
        have : t = t0 :=
          List.inj_on_of_nodup_map hWF.tagIdsNodup ht ht0mem (htid.symm.trans hteq0)
        exact hneg ⟨hi ▸ hji, hn ▸ (this ▸ ht0name : t.name = n)⟩
      · left
        rw [beq_eq_false_iff_ne]
        exact hji

theorem filter_name_eq (l : List TagRow) (hnd : (l.map (fun t => t.name)).Nodup)
    (n : String) :
    l.filter (fun t => t.name == n) = []
    ∨ ∃ t0, l.filter (fun t => t.name == n) = [t0] ∧ t0 ∈ l ∧ t0.name = n := by
  induction l with
  | nil => exact Or.inl rfl
  | cons a l ih =>
    rw [List.map_cons, List.nodup_cons] at hnd
    obtain ⟨hna, hnd⟩ := hnd
    by_cases ha : a.name = n
    · right
      refine ⟨a, ?_, List.mem_cons_self a l, ha⟩
      have hnil : l.filter (fun t => t.name == n) = [] := by
        rw [List.filter_eq_nil_iff]
        intro t ht htn
        rw [beq_iff_eq] at htn
        exact hna (List.mem_map.mpr ⟨t, ht, htn.trans ha.symm⟩)
      rw [List.filter_cons_of_pos (by simp [ha]), hnil]
    · rw [List.filter_cons_of_neg (by simp [ha])]
      rcases ih hnd with h | ⟨t0, h1, h2, h3⟩
      · exact Or.inl h
      · exact Or.inr ⟨t0, h1, List.mem_cons_of_mem a h2, h3⟩

/-- The `INSERT OR IGNORE INTO image_tags ... SELECT` statement under WF with
an existing image: always succeeds, keeps images/tags, preserves WF, and adds
exactly the association to the named tag when that tag exists. -/
theorem execStmt_insertOrIgnoreAssocSel_spec (db : DB) (i n : String)
    (hWF : WF db) (hi : imageExists db i = true) :
    ∃ db', execStmt (.insertOrIgnoreAssocSel i n) db = .ok db'
      ∧ db'.images = db.images ∧ db'.tags = db.tags ∧ db'.nextTagId = db.nextTagId
      ∧ WF db'
      ∧ ∀ j x, (hasTagNamed db' j x = true ↔
          (hasTagNamed db j x = true ∨ (j = i ∧ x = n ∧ tagExists db n = true))) := by
  simp only [execStmt]
  rcases filter_name_eq db.tags hWF.tagNamesNodup n with hnil | ⟨t0, hone, ht0, ht0n⟩
  · rw [hnil]
    refine ⟨db, rfl, rfl, rfl, rfl, hWF, ?_⟩
    intro j x
    have hnex : tagExists db n = false := by
      cases hex : tagExists db n
      · rfl
      · obtain ⟨t, ht, htn⟩ := (tagExists_iff db n).mp hex
        have hmem : t ∈ db.tags.filter (fun t => t.name == n) :=
          List.mem_filter.mpr ⟨ht, by simp [htn]⟩
        rw [hnil] at hmem
        cases hmem
    simp [hnex]
  · rw [hone]
    by_cases hp : db.image_tags.any (fun it => it.image_id == i && it.tag_id == t0.id)
    · refine ⟨db, ?_, rfl, rfl, rfl, hWF, ?_⟩
      · simp only [List.map_cons, List.map_nil, insertAssocRows]
        rw [if_pos hi, if_pos hp]
        rfl
      · intro j x
        have hhas : hasTagNamed db i n = true := by
          rw [List.any_eq_true] at hp
          obtain ⟨it, hit, hcond⟩ := hp
          rw [Bool.and_eq_true, beq_iff_eq, beq_iff_eq] at hcond
          rw [hasTagNamed_iff]
          exact ⟨t0, ht0, ht0n, it, hit, hcond.1, hcond.2⟩
        constructor
        · exact Or.inl
        · rintro (h | ⟨rfl, rfl, -⟩)
          · exact h
          · exact hhas
    · refine ⟨{ db with image_tags := db.image_tags ++ [⟨i, t0.id⟩] },
        ?_, rfl, rfl, rfl, ?_, ?_⟩
      · simp only [List.map_cons, List.map_nil, insertAssocRows]
        rw [if_pos hi, if_neg hp]
      · refine ⟨hWF.imagesNodup, hWF.tagIdsNodup, hWF.tagNamesNodup, ?_, ?_, ?_,
          hWF.tagIdsBound⟩
        · rw [List.nodup_append]
          refine ⟨hWF.assocNodup, by simp, ?_⟩
          intro a ha hb
          simp at hb
          subst hb
          exact hp (List.any_eq_true.mpr ⟨_, ha, by simp⟩)
        · intro it hit
          rcases List.mem_append.mp hit with h | h
          · exact hWF.assocImageFK it h
          · simp at h
            subst h
            exact hi
        · intro it hit
          rcases List.mem_append.mp hit with h | h
          · exact hWF.assocTagFK it h
          · simp at h
            subst h
            exact ⟨t0, ht0, rfl⟩
      · intro j x
        have hex : tagExists db n = true := (tagExists_iff db n).mpr ⟨t0, ht0, ht0n⟩
        rw [hasTagNamed_iff, hasTagNamed_iff]
        constructor
        · rintro ⟨t, ht, hn, it, hit, hij, htid⟩
          rcases List.mem_append.mp hit with h | h
          · exact Or.inl ⟨t, ht, hn, it, h, hij, htid⟩
          · simp at h
            subst h
            simp only at hij htid
            have hteq : t = t0 :=
              List.inj_on_of_nodup_map hWF.tagIdsNodup ht ht0 htid.symm
            exact Or.inr ⟨hij.symm, hn.symm.trans (by rw [hteq, ht0n]), hex⟩
        · rintro (⟨t, ht, hn, it, hit, hij, htid⟩ | ⟨rfl, rfl, -⟩)
          · exact ⟨t, ht, hn, it, List.mem_append_left _ hit, hij, htid⟩
          · exact ⟨t0, ht0, ht0n, ⟨j, t0.id⟩, List.mem_append_right _ (by simp), rfl, rfl⟩

/-- Executing the delete statements for a list of tag names: always succeeds,
preserves images/tags and WF, and removes exactly the named associations of
the targeted image. -/
theorem batch_deletes (i : String) :
    ∀ (D : List String) (db : DB), WF db →
    ∃ db', batch (D.map (fun t => Stmt.deleteAssoc i t)) db = .ok db'
      ∧ db'.images = db.images ∧ db'.tags = db.tags ∧ db'.nextTagId = db.nextTagId
      ∧ WF db'
      ∧ ∀ j x, (hasTagNamed db' j x = true ↔
          (hasTagNamed db j x = true ∧ ¬(j = i ∧ x ∈ D))) := by
  intro D
  induction D with
  | nil =>
    intro db hWF
    exact ⟨db, rfl, rfl, rfl, rfl, hWF, by simp⟩
  | cons t D ih =>
    intro db hWF
    have hWF1 : WF (applyDeleteAssoc db i t) := WF_applyDeleteAssoc db i t hWF
    obtain ⟨db', hbatch, him, htg, hnx, hWF', hchar⟩ := ih (applyDeleteAssoc db i t) hWF1
    refine ⟨db', ?_, ?_, ?_, ?_, hWF', ?_⟩
    · rw [List.map_cons, batch_cons_ok]
      exact ⟨applyDeleteAssoc db i t, rfl, hbatch⟩
    · rw [him, applyDeleteAssoc_images]
    · rw [htg, applyDeleteAssoc_tags]
    · rw [hnx, applyDeleteAssoc_nextTagId]
    · intro j x
      rw [hchar j x, hasTagNamed_applyDeleteAssoc_iff db hWF i t j x]
      constructor
      · rintro ⟨⟨h1, h2⟩, h3⟩
        refine ⟨h1, ?_⟩
        rintro ⟨rfl, hx⟩
        rcases List.mem_cons.mp hx with rfl | hx
        · exact h2 ⟨rfl, rfl⟩
        · exact h3 ⟨rfl, hx⟩
      · rintro ⟨h1, h2⟩
        refine ⟨⟨h1, ?_⟩, ?_⟩
        · rintro ⟨rfl, rfl⟩
          exact h2 ⟨rfl, List.mem_cons_self _ _⟩
        · rintro ⟨rfl, hx⟩
          exact h2 ⟨rfl, List.mem_cons_of_mem _ hx⟩

theorem batch_append_ok (l1 l2 : List Stmt) (db db2 : DB) :
    batch (l1 ++ l2) db = .ok db2 ↔
      ∃ db1, batch l1 db = .ok db1 ∧ batch l2 db1 = .ok db2 := by
  induction l1 generalizing db with
  | nil => simp [batch]
  | cons s rest ih =>
    rw [List.cons_append, batch_cons_ok]
    constructor
    · rintro ⟨db1, hs, hrest⟩
      obtain ⟨dbm, h1, h2⟩ := (ih db1).mp hrest
      exact ⟨dbm, (batch_cons_ok s rest db dbm).mpr ⟨db1, hs, h1⟩, h2⟩
    · rintro ⟨dbm, h1, h2⟩
      obtain ⟨db1, hs, h1a⟩ := (batch_cons_ok s rest db dbm).mp h1
      exact ⟨db1, hs, (ih db1).mpr ⟨dbm, h1a, h2⟩⟩

theorem batch_if_pos (l : List Stmt) (db : DB) :
    (if l.length > 0 then batch l db else .ok db) = batch l db := by
  cases l with
  | nil => simp [batch]
  | cons s rest => simp

/-- Executing the ensure-tag/associate statement pairs for a list of tag
names: always succeeds given the image exists, preserves WF and the images
table, creates the named tags, and adds exactly the named associations to the
targeted image. -/
theorem batch_ensureAssocs (i : String) :
    ∀ (A : List String) (db : DB), WF db → imageExists db i = true →
    ∃ db', batch (A.flatMap (fun t =>
        [Stmt.insertOrIgnoreTag t, Stmt.insertOrIgnoreAssocSel i t])) db = .ok db'
      ∧ db'.images = db.images
      ∧ WF db'
      ∧ (∀ x, tagExists db' x = true ↔ (tagExists db x = true ∨ x ∈ A))
      ∧ (∀ j x, (hasTagNamed db' j x = true ↔
          (hasTagNamed db j x = true ∨ (j = i ∧ x ∈ A)))) := by
  intro A
  induction A with
  | nil =>
    intro db hWF hi
    exact ⟨db, rfl, rfl, hWF, by simp, by simp⟩
  | cons t A ih =>
    intro db hWF hi
    set dbA := applyInsertOrIgnoreTag db t with hdbA
    have hWFA : WF dbA := WF_applyInsertOrIgnoreTag db t hWF
    have hiA : imageExists dbA i = true := by
      rw [imageExists_congr db dbA (applyInsertOrIgnoreTag_images db t) i]
      exact hi
    have htA : tagExists dbA t = true := tagExists_applyInsertOrIgnoreTag_self db t
    have hAchar : ∀ j x, hasTagNamed dbA j x = true ↔ hasTagNamed db j x = true := by
      intro j x
      rw [hdbA]
      exact hasTagNamed_applyInsertOrIgnoreTag_iff db hWF t j x
    have htexA : ∀ x, tagExists dbA x = true ↔ (tagExists db x = true ∨ x = t) := by
      intro x
      rw [hdbA]
      exact tagExists_applyInsertOrIgnoreTag_iff db t x
    obtain ⟨dbB, hexec, hBim, hBtg, hBnx, hWFB, hBchar⟩ :=
      execStmt_insertOrIgnoreAssocSel_spec dbA i t hWFA hiA
    have hiB : imageExists dbB i = true := by
      rw [imageExists_congr dbA dbB hBim i]
      exact hiA
    have htexB : ∀ x, tagExists dbB x = tagExists dbA x := by
      intro x
      rw [tagExists, tagExists, hBtg]
    obtain ⟨db', hbatch, him, hWF', htex, hchar⟩ := ih dbB hWFB hiB
    refine ⟨db', ?_, ?_, hWF', ?_, ?_⟩
    · simp only [List.flatMap_cons, List.cons_append, List.nil_append]
      rw [batch_cons_ok]
      refine ⟨dbA, rfl, ?_⟩
      rw [batch_cons_ok]
      exact ⟨dbB, hexec, hbatch⟩
    · rw [him, hBim, hdbA, applyInsertOrIgnoreTag_images]
    · intro x
      rw [htex x, htexB x, htexA x]
      constructor
      · rintro ((h | rfl) | hx)
        · exact Or.inl h
        · exact Or.inr (List.mem_cons_self _ _)
        · exact Or.inr (List.mem_cons_of_mem _ hx)
      · rintro (h | hx)
        · exact Or.inl (Or.inl h)
        · rcases List.mem_cons.mp hx with rfl | hx
          · exact Or.inl (Or.inr rfl)
          · exact Or.inr hx
    · intro j x
      rw [hchar j x, hBchar j x, hAchar j x]
      constructor
      · rintro ((h | ⟨rfl, rfl, -⟩) | ⟨rfl, hx⟩)
        · exact Or.inl h
        · exact Or.inr ⟨rfl, List.mem_cons_self _ _⟩
        · exact Or.inr ⟨rfl, List.mem_cons_of_mem _ hx⟩
      · rintro (h | ⟨rfl, hx⟩)
        · exact Or.inl (Or.inl h)
        · rcases List.mem_cons.mp hx with rfl | hx
          · exact Or.inl (Or.inr ⟨rfl, rfl, htA⟩)
          · exact Or.inr ⟨rfl, hx⟩

/-! ### C3: updateImage tag-set replacement -/

theorem getImage_some_elim (db : DB) (id : String) (img : ImageMetadata)
    (h : getImage db id = some img) :
    ∃ row, db.images.find? (fun r => r.id == id) = some row
      ∧ img = rowToMetadata row (imageTagNames db id)
      ∧ img.tags = imageTagNames db id
      ∧ imageExists db id = true := by
  unfold getImage at h
  cases hfind : db.images.find? (fun r => r.id == id) with
  | none => rw [hfind] at h; cases h
  | some row =>
    rw [hfind] at h
    have h2 : rowToMetadata row (imageTagNames db id) = img := by simpa using h
    refine ⟨row, rfl, h2.symm, by rw [← h2]; rfl, ?_⟩
    rw [imageExists_iff]
    exact ⟨row, List.mem_of_find?_eq_some hfind,
      by simpa [beq_iff_eq] using List.find?_some hfind⟩

/-- C3: replacing an image's tags computes the symmetric difference against
the current set: afterwards the record read back has exactly the supplied tag
set (order-insensitive), associations of other images are untouched, and the
state stays well-formed (zero dangling association rows).  For a missing id
the call returns the not-found signal and changes nothing. -/
theorem updateImage_replace_tags (db : DB) (id : String) (T2 : List String)
    (hWF : WF db) :
    (∀ img, getImage db id = some img → img.tags.toFinset ≠ T2.toFinset →
        ∃ db' md, updateImage db id { tags := some T2 } = .ok (db', some md)
          ∧ (∀ n, n ∈ md.tags ↔ n ∈ T2)
          ∧ (∀ j, j ≠ id → ∀ x,
              (hasTagNamed db' j x = true ↔ hasTagNamed db j x = true))
          ∧ WF db')
    ∧ (getImage db id = none →
        updateImage db id { tags := some T2 } = .ok (db, none)) := by
  constructor
  · intro img himg hne
    obtain ⟨row, hfind, hmd, htags, hex⟩ := getImage_some_elim db id img himg
    set D := (firstDedup img.tags).filter (fun t => !(T2.contains t)) with hD
    set A := (firstDedup T2).filter (fun t => !(img.tags.contains t)) with hA
    have hstmts : updateImageStmts id img.tags { tags := some T2 } =
        D.map (fun t => Stmt.deleteAssoc id t)
        ++ A.flatMap (fun t =>
            [Stmt.insertOrIgnoreTag t, Stmt.insertOrIgnoreAssocSel id t]) := by
      simp [updateImageStmts, hD, hA]
    obtain ⟨db1, hb1, him1, htg1, hnx1, hWF1, hchar1⟩ := batch_deletes id D db hWF
    have hex1 : imageExists db1 id = true := by
      rw [imageExists_congr db db1 him1 id]
      exact hex
    obtain ⟨db', hb2, him2, hWF', htex2, hchar2⟩ := batch_ensureAssocs id A db1 hWF1 hex1
    have hbatch : batch (updateImageStmts id img.tags { tags := some T2 }) db
        = .ok db' := by
      rw [hstmts, batch_append_ok]
      exact ⟨db1, hb1, hb2⟩
    have himages : db'.images = db.images := by rw [him2, him1]
    have hfind' : db'.images.find? (fun r => r.id == id) = some row := by
      rw [himages]
      exact hfind
    have hget' : getImage db' id = some (rowToMetadata row (imageTagNames db' id)) := by
      unfold getImage
      rw [hfind']
      rfl
    have hupd : updateImage db id { tags := some T2 } =
        .ok (db', getImage db' id) := by
      have h0 : (if (updateImageStmts id img.tags
              { tags := some T2 }).length > 0
          then batch (updateImageStmts id img.tags { tags := some T2 }) db
          else .ok db) = .ok db' := by
        rw [batch_if_pos]
        exact hbatch
      simp only [updateImage, himg, h0]
    have hmemD : ∀ n, n ∈ D ↔ (n ∈ img.tags ∧ n ∉ T2) := by
      intro n
      rw [hD, List.mem_filter, mem_firstDedup]
      simp
    have hmemA : ∀ n, n ∈ A ↔ (n ∈ T2 ∧ n ∉ img.tags) := by
      intro n
      rw [hA, List.mem_filter, mem_firstDedup]
      simp
    have hT1 : ∀ n, hasTagNamed db id n = true ↔ n ∈ img.tags := by
      intro n
      rw [htags]
      exact (mem_imageTagNames db id n).symm
    refine ⟨db', rowToMetadata row (imageTagNames db' id),
      by rw [hupd, hget'], ?_, ?_, hWF'⟩
    · intro n
      show n ∈ imageTagNames db' id ↔ n ∈ T2
      rw [mem_imageTagNames, hchar2 id n, hchar1 id n, hT1 n]
      simp only [hmemD, hmemA]
      tauto
    · intro j hj x
      rw [hchar2 j x, hchar1 j x]
      constructor
      · rintro (⟨h1, -⟩ | ⟨rfl, -⟩)
        · exact h1
        · exact absurd rfl hj
      · intro h1
        refine Or.inl ⟨h1, ?_⟩
        rintro ⟨rfl, -⟩
        exact hj rfl
  · intro himg
    simp [updateImage, himg]

theorem updateImage_replace_tags_witness :
    (WF dbW ∧ getImage dbW "img1" = some mdW
     ∧ mdW.tags.toFinset ≠ (["cat", "dog"] : List String).toFinset)
    ∧ (∃ db' md,
        updateImage dbW "img1" { tags := some ["cat", "dog"] } = .ok (db', some md)
        ∧ (∀ n, n ∈ md.tags ↔ n ∈ ["cat", "dog"])
        ∧ (∀ j, j ≠ "img1" → ∀ x,
            (hasTagNamed db' j x = true ↔ hasTagNamed dbW j x = true))
        ∧ WF db') :=
  ⟨⟨by constructor <;> decide, by decide, by decide⟩,
   (updateImage_replace_tags dbW "img1" ["cat", "dog"]
      (by constructor <;> decide)).1 mdW (by decide) (by decide)⟩

/-! ### C5: batchUpdateTags -/

theorem batch_ensureTags :
    ∀ (A : List String) (db : DB), WF db →
    ∃ db', batch (A.map Stmt.insertOrIgnoreTag) db = .ok db'
      ∧ db'.images = db.images ∧ db'.image_tags = db.image_tags
      ∧ WF db'
      ∧ (∀ x, tagExists db' x = true ↔ (tagExists db x = true ∨ x ∈ A))
      ∧ (∀ j x, hasTagNamed db' j x = true ↔ hasTagNamed db j x = true) := by
  intro A
  induction A with
  | nil =>
    intro db hWF
    exact ⟨db, rfl, rfl, rfl, hWF, by simp, by simp⟩
  | cons t A ih =>
    intro db hWF
    obtain ⟨db', hbatch, him, hit, hWF', htex, hchar⟩ :=
      ih (applyInsertOrIgnoreTag db t) (WF_applyInsertOrIgnoreTag db t hWF)
    refine ⟨db', ?_, ?_, ?_, hWF', ?_, ?_⟩
    · rw [List.map_cons, batch_cons_ok]
      exact ⟨applyInsertOrIgnoreTag db t, rfl, hbatch⟩
    · rw [him, applyInsertOrIgnoreTag_images]
    · rw [hit, applyInsertOrIgnoreTag_assocs]
    · intro x
      rw [htex x, tagExists_applyInsertOrIgnoreTag_iff db t x]
      constructor
      · rintro ((h | rfl) | hx)
        · exact Or.inl h
        · exact Or.inr (List.mem_cons_self _ _)
        · exact Or.inr (List.mem_cons_of_mem _ hx)
      · rintro (h | hx)
        · exact Or.inl (Or.inl h)
        · rcases List.mem_cons.mp hx with rfl | hx
          · exact Or.inl (Or.inr rfl)
          · exact Or.inr hx
    · intro j x
      rw [hchar j x, hasTagNamed_applyInsertOrIgnoreTag_iff db hWF t j x]

theorem batch_orIgnoreAssocs (i : String) :
    ∀ (A : List String) (db : DB), WF db → imageExists db i = true →
    ∃ db', batch (A.map (fun t => Stmt.insertOrIgnoreAssocSel i t)) db = .ok db'
      ∧ db'.images = db.images ∧ db'.tags = db.tags
      ∧ WF db'
      ∧ ∀ j x, (hasTagNamed db' j x = true ↔
          (hasTagNamed db j x = true ∨ (j = i ∧ x ∈ A ∧ tagExists db x = true))) := by
  intro A
  induction A with
  | nil =>
    intro db hWF hi
    exact ⟨db, rfl, rfl, rfl, hWF, by simp⟩
  | cons t A ih =>
    intro db hWF hi
    obtain ⟨dbB, hexec, hBim, hBtg, hBnx, hWFB, hBchar⟩ :=
      execStmt_insertOrIgnoreAssocSel_spec db i t hWF hi
    have hiB : imageExists dbB i = true := by
      rw [imageExists_congr db dbB hBim i]
      exact hi
    have htexB : ∀ x, tagExists dbB x = tagExists db x := by
      intro x
      rw [tagExists, tagExists, hBtg]
    obtain ⟨db', hbatch, him, htg, hWF', hchar⟩ := ih dbB hWFB hiB
    refine ⟨db', ?_, by rw [him, hBim], by rw [htg, hBtg], hWF', ?_⟩
    · rw [List.map_cons, batch_cons_ok]
      exact ⟨dbB, hexec, hbatch⟩
    · intro j x
      rw [hchar j x, hBchar j x]
      constructor
      · rintro ((h | ⟨rfl, rfl, hx⟩) | ⟨rfl, hx, he⟩)
        · exact Or.inl h
        · exact Or.inr ⟨rfl, List.mem_cons_self _ _, hx⟩
        · exact Or.inr ⟨rfl, List.mem_cons_of_mem _ hx, (htexB x) ▸ he⟩
      · rintro (h | ⟨rfl, hx, he⟩)
        · exact Or.inl (Or.inl h)
        · rcases List.mem_cons.mp hx with rfl | hx
          · exact Or.inl (Or.inr ⟨rfl, rfl, he⟩)
          · exact Or.inr ⟨rfl, hx, (htexB x).symm ▸ he⟩

/-- One per-image block of `batchUpdateTags`: removals before additions, so a
tag in both lists ends up associated. -/
theorem batch_updateBlock (i : String) (add rem : List String) (db : DB)
    (hWF : WF db) (hi : imageExists db i = true)
    (hadd : ∀ t ∈ add, tagExists db t = true) :
    ∃ db', batch (rem.map (fun t => Stmt.deleteAssoc i t)
        ++ add.map (fun t => Stmt.insertOrIgnoreAssocSel i t)) db = .ok db'
      ∧ db'.images = db.images ∧ db'.tags = db.tags
      ∧ WF db'
      ∧ ∀ j x, (hasTagNamed db' j x = true ↔
          ((hasTagNamed db j x = true ∧ ¬(j = i ∧ x ∈ rem)) ∨ (j = i ∧ x ∈ add))) := by
  obtain ⟨db1, hb1, him1, htg1, hnx1, hWF1, hchar1⟩ := batch_deletes i rem db hWF
  have hi1 : imageExists db1 i = true := by
    rw [imageExists_congr db db1 him1 i]
    exact hi
  obtain ⟨db', hb2, him2, htg2, hWF', hchar2⟩ := batch_orIgnoreAssocs i add db1 hWF1 hi1
  have htex1 : ∀ x, tagExists db1 x = tagExists db x := by
    intro x
    rw [tagExists, tagExists, htg1]
  refine ⟨db', ?_, by rw [him2, him1], by rw [htg2, htg1], hWF', ?_⟩
  · rw [batch_append_ok]
    exact ⟨db1, hb1, hb2⟩
  · intro j x
    rw [hchar2 j x, hchar1 j x]
    constructor
    · rintro (⟨h1, h2⟩ | ⟨rfl, hx, -⟩)
      · exact Or.inl ⟨h1, h2⟩
      · exact Or.inr ⟨rfl, hx⟩
    · rintro (⟨h1, h2⟩ | ⟨rfl, hx⟩)
      · exact Or.inl ⟨h1, h2⟩
      · exact Or.inr ⟨rfl, hx, (htex1 x).symm ▸ hadd x hx⟩

theorem batch_updateBlocks (add rem : List String) :
    ∀ (ids : List String) (db : DB), WF db →
    (∀ id ∈ ids, imageExists db id = true) →
    (∀ t ∈ add, tagExists db t = true) →
    ∃ db', batch (ids.flatMap (fun id =>
        rem.map (fun t => Stmt.deleteAssoc id t)
        ++ add.map (fun t => Stmt.insertOrIgnoreAssocSel id t))) db = .ok db'
      ∧ db'.images = db.images ∧ db'.tags = db.tags
      ∧ WF db'
      ∧ (∀ j ∈ ids, ∀ x, (hasTagNamed db' j x = true ↔
          ((hasTagNamed db j x = true ∧ x ∉ rem) ∨ x ∈ add)))
      ∧ (∀ j, j ∉ ids → ∀ x,
          (hasTagNamed db' j x = true ↔ hasTagNamed db j x = true)) := by
  intro ids
  induction ids with
  | nil =>
    intro db hWF hids hadd
    exact ⟨db, rfl, rfl, rfl, hWF, by simp, by simp⟩
  | cons id0 ids ih =>
    intro db hWF hids hadd
    obtain ⟨db1, hb1, him1, htg1, hWF1, hchar1⟩ :=
      batch_updateBlock id0 add rem db hWF (hids id0 (List.mem_cons_self _ _)) hadd
    have hids1 : ∀ id ∈ ids, imageExists db1 id = true := by
      intro id hid
      rw [imageExists_congr db db1 him1 id]
      exact hids id (List.mem_cons_of_mem _ hid)
    have hadd1 : ∀ t ∈ add, tagExists db1 t = true := by
      intro t ht
      rw [tagExists, htg1]
      exact hadd t ht
    obtain ⟨db', hb2, him2, htg2, hWF', hchar2in, hchar2out⟩ := ih db1 hWF1 hids1 hadd1
    refine ⟨db', ?_, by rw [him2, him1], by rw [htg2, htg1], hWF', ?_, ?_⟩
    · rw [List.flatMap_cons, batch_append_ok]
      exact ⟨db1, hb1, hb2⟩
    · intro j hj x
      by_cases hjr : j ∈ ids
      · rw [hchar2in j hjr x, hchar1 j x]
        constructor
        · rintro (⟨(⟨h1, -⟩ | ⟨rfl, h2⟩), h3⟩ | h4)
          · exact Or.inl ⟨h1, h3⟩
          · exact Or.inr h2
          · exact Or.inr h4
        · rintro (⟨h1, h2⟩ | h3)
          · exact Or.inl ⟨Or.inl ⟨h1, fun hc => h2 hc.2⟩, h2⟩
          · exact Or.inr h3
      · have hj0 : j = id0 := by
          rcases List.mem_cons.mp hj with h | h
          · exact h
          · exact absurd h hjr
        subst hj0
        rw [hchar2out j hjr x, hchar1 j x]
        constructor
        · rintro (⟨h1, h2⟩ | ⟨-, h3⟩)
          · exact Or.inl ⟨h1, fun hc => h2 ⟨rfl, hc⟩⟩
          · exact Or.inr h3
        · rintro (⟨h1, h2⟩ | h3)
          · exact Or.inl ⟨h1, fun hc => h2 hc.2⟩
          · exact Or.inr ⟨rfl, h3⟩
    · intro j hj x
      have hj0 : ¬ j = id0 := fun h => hj (h ▸ List.mem_cons_self _ _)
      have hjr : j ∉ ids := fun h => hj (List.mem_cons_of_mem _ h)
      rw [hchar2out j hjr x, hchar1 j x]
      constructor
      · rintro (⟨h1, -⟩ | ⟨h2, -⟩)
        · exact h1
        · exact absurd h2 hj0
      · intro h1
        exact Or.inl ⟨h1, fun hc => hj0 hc.1⟩

/-- C5: `batchUpdateTags` ensures the added tags exist, then per image
performs all removals before all additions — a tag in both lists therefore
ends up associated (add wins) — and returns the length of the id list, not
the number of images actually changed. -/
theorem batchUpdateTags_spec (db : DB) (ids add rem : List String)
    (hWF : WF db) (hids : ∀ id ∈ ids, imageExists db id = true) :
    ∃ db', batchUpdateTags db ids add rem = .ok (db', ids.length)
      ∧ WF db'
      ∧ (∀ t ∈ add, tagExists db' t = true)
      ∧ (∀ id ∈ ids, ∀ x, (hasTagNamed db' id x = true ↔
          ((hasTagNamed db id x = true ∧ x ∉ rem) ∨ x ∈ add)))
      ∧ (∀ id ∈ ids, ∀ t ∈ add, hasTagNamed db' id t = true)
      ∧ (∀ j, j ∉ ids → ∀ x,
          (hasTagNamed db' j x = true ↔ hasTagNamed db j x = true)) := by
  obtain ⟨db0, hb0, him0, hit0, hWF0, htex0, hchar0⟩ := batch_ensureTags add db hWF
  have hids0 : ∀ id ∈ ids, imageExists db0 id = true := by
    intro id hid
    rw [imageExists_congr db db0 him0 id]
    exact hids id hid
  have hadd0 : ∀ t ∈ add, tagExists db0 t = true := by
    intro t ht
    exact (htex0 t).mpr (Or.inr ht)
  obtain ⟨db', hb1, him1, htg1, hWF', hcharIn, hcharOut⟩ :=
    batch_updateBlocks add rem ids db0 hWF0 hids0 hadd0
  have hbatch : batch (batchUpdateTagsStmts ids add rem) db = .ok db' := by
    rw [batchUpdateTagsStmts, batch_append_ok]
    exact ⟨db0, hb0, hb1⟩
  refine ⟨db', ?_, hWF', ?_, ?_, ?_, ?_⟩
  · rw [batchUpdateTags, hbatch]
  · intro t ht
    rw [tagExists, htg1]
    exact hadd0 t ht
  · intro id hid x
    rw [hcharIn id hid x, hchar0 id x]
  · intro id hid t ht
    rw [hcharIn id hid t]
    exact Or.inr ht
  · intro j hj x
    rw [hcharOut j hj x, hchar0 j x]

theorem batchUpdateTags_spec_witness :
    (WF dbW ∧ (∀ id ∈ ["img1"], imageExists dbW id = true))
    ∧ ∃ db', batchUpdateTags dbW ["img1"] ["x"] ["x"] = .ok (db', (["img1"] : List String).length)
      ∧ WF db'
      ∧ (∀ t ∈ ["x"], tagExists db' t = true)
      ∧ (∀ id ∈ ["img1"], ∀ x, (hasTagNamed db' id x = true ↔
          ((hasTagNamed dbW id x = true ∧ x ∉ ["x"]) ∨ x ∈ ["x"])))
      ∧ (∀ id ∈ ["img1"], ∀ t ∈ ["x"], hasTagNamed db' id t = true)
      ∧ (∀ j, j ∉ ["img1"] → ∀ x,
          (hasTagNamed db' j x = true ↔ hasTagNamed dbW j x = true)) :=
  ⟨⟨by constructor <;> decide, by decide⟩,
   batchUpdateTags_spec dbW ["img1"] ["x"] ["x"] (by constructor <;> decide) (by decide)⟩

/-! ### C6: renameTag -/

theorem length_eq_of_nodup_same_mem (l1 l2 : List String)
    (h1 : l1.Nodup) (h2 : l2.Nodup) (hmem : ∀ x, x ∈ l1 ↔ x ∈ l2) :
    l1.length = l2.length := by
  rw [← List.toFinset_card_of_nodup h1, ← List.toFinset_card_of_nodup h2]
  congr 1
  ext x
  simp only [List.mem_toFinset]
  exact hmem x

/-- The count read by `renameTag` (joined association pairs for the old name)
equals, under WF, the number of images associated with that name. -/
theorem renameTagCount_eq (db : DB) (oldN : String) (hWF : WF db) :
    renameTagCount db oldN =
      (db.images.filter (fun r => hasTagNamed db r.id oldN)).length := by
  by_cases hex : tagExists db oldN
  · obtain ⟨t0, -, ht0, ht0n⟩ :=
      (filter_name_eq db.tags hWF.tagNamesNodup oldN).resolve_left (by
        intro hnil
        obtain ⟨t, ht, htn⟩ := (tagExists_iff db oldN).mp hex
        have : t ∈ db.tags.filter (fun t => t.name == oldN) :=
          List.mem_filter.mpr ⟨ht, by simp [htn]⟩
        rw [hnil] at this
        cases this)
    have hcond : ∀ it ∈ db.image_tags,
        ((db.tags.any (fun t => t.id == it.tag_id && t.name == oldN)) = true
          ↔ it.tag_id = t0.id) := by
      intro it _
      constructor
      · intro h
        rw [List.any_eq_true] at h
        obtain ⟨t, ht, hc⟩ := h
        rw [Bool.and_eq_true, beq_iff_eq, beq_iff_eq] at hc
        have : t = t0 :=
          List.inj_on_of_nodup_map hWF.tagNamesNodup ht ht0 (hc.2.trans ht0n.symm)
        rw [← hc.1, this]
      · intro h
        rw [List.any_eq_true]
        exact ⟨t0, ht0, by simp [h, ht0n]⟩
    have hlen := length_eq_of_nodup_same_mem
      ((db.image_tags.filter (fun it =>
        db.tags.any (fun t => t.id == it.tag_id && t.name == oldN))).map
          (fun it => it.image_id))
      ((db.images.filter (fun r => hasTagNamed db r.id oldN)).map (fun r => r.id))
      ?_ ?_ ?_
    · rw [renameTagCount]
      simpa using hlen
    · refine List.Nodup.map_on ?_ (hWF.assocNodup.sublist (List.filter_sublist _))
      intro it1 h1 it2 h2 hid
      have ht1 : it1.tag_id = t0.id :=
        (hcond it1 (List.mem_of_mem_filter h1)).mp (List.mem_filter.mp h1).2
      have ht2 : it2.tag_id = t0.id :=
        (hcond it2 (List.mem_of_mem_filter h2)).mp (List.mem_filter.mp h2).2
      cases it1
      cases it2
      simp_all
    · exact ((List.filter_sublist _).map _).nodup hWF.imagesNodup
    · intro x
      constructor
      · intro hx
        rw [List.mem_map] at hx
        obtain ⟨it, hit, rfl⟩ := hx
        have hitm : it ∈ db.image_tags := List.mem_of_mem_filter hit
        have htid : it.tag_id = t0.id :=
          (hcond it hitm).mp (List.mem_filter.mp hit).2
        obtain ⟨r, hr, hrid⟩ := (imageExists_iff db it.image_id).mp
          (hWF.assocImageFK it hitm)
        rw [List.mem_map]
        refine ⟨r, List.mem_filter.mpr ⟨hr, ?_⟩, hrid⟩
        rw [hasTagNamed_iff]
        exact ⟨t0, ht0, ht0n, it, hitm, hrid.symm, htid⟩
      · intro hx
        rw [List.mem_map] at hx
        obtain ⟨r, hr, rfl⟩ := hx
        have hhas := List.of_mem_filter hr
        rw [hasTagNamed_iff] at hhas
        obtain ⟨t, ht, htn, it, hit, hiti, hitt⟩ := hhas
        have hteq : t = t0 :=
          List.inj_on_of_nodup_map hWF.tagNamesNodup ht ht0 (htn.trans ht0n.symm)
        rw [List.mem_map]
        refine ⟨it, List.mem_filter.mpr ⟨hit, ?_⟩, hiti⟩
        exact (hcond it hit).mpr (hitt.trans (congrArg TagRow.id hteq))
  · have hnone : db.image_tags.filter
        (fun it => db.tags.any (fun t => t.id == it.tag_id && t.name == oldN)) = [] := by
      rw [List.filter_eq_nil_iff]
      intro it _ hc
      rw [List.any_eq_true] at hc
      obtain ⟨t, ht, hc2⟩ := hc
      rw [Bool.and_eq_true, beq_iff_eq, beq_iff_eq] at hc2
      exact hex ((tagExists_iff db oldN).mpr ⟨t, ht, hc2.2⟩)
    have himg : db.images.filter (fun r => hasTagNamed db r.id oldN) = [] := by
      rw [List.filter_eq_nil_iff]
      intro r _ hc
      rw [hasTagNamed_iff] at hc
      obtain ⟨t, ht, htn, -⟩ := hc
      exact hex ((tagExists_iff db oldN).mpr ⟨t, ht, htn⟩)
    rw [renameTagCount, hnone, himg]
    rfl

/-- C6: `renameTag` renames in place — every image previously associated with
the old name is afterwards associated with the new name and no image is
associated with the old name any more — and it returns the number of images
associated with the old name as observed at call time. -/
theorem renameTag_spec (db : DB) (oldN newN : String) (hWF : WF db)
    (hnew : tagExists db newN = false) :
    ∃ db', renameTag db oldN newN =
        .ok (db', (db.images.filter (fun r => hasTagNamed db r.id oldN)).length)
      ∧ (∀ j, (hasTagNamed db' j newN = true ↔ hasTagNamed db j oldN = true))
      ∧ (∀ j, hasTagNamed db' j oldN = false) := by
  have hcondF : (tagExists db oldN && tagExists db newN && !(oldN == newN)) = false := by
    rw [hnew]
    simp
  refine ⟨{ db with tags := db.tags.map (fun t =>
      if t.name == oldN then { t with name := newN } else t) }, ?_, ?_, ?_⟩
  · rw [renameTag]
    simp only [hcondF, Bool.false_eq_true, if_false]
    rw [renameTagCount_eq db oldN hWF]
  · intro j
    rw [hasTagNamed_iff, hasTagNamed_iff]
    constructor
    · rintro ⟨t', ht', hn', it, hit, hiti, hitt⟩
      simp only [List.mem_map] at ht'
      obtain ⟨t, ht, rfl⟩ := ht'
      by_cases hc : t.name = oldN
      · rw [if_pos (by simp [hc])] at hn' hitt
        exact ⟨t, ht, hc, it, hit, hiti, hitt⟩
      · rw [if_neg (by simp [hc])] at hn' hitt
        exact absurd ((tagExists_iff db newN).mpr ⟨t, ht, hn'⟩) (by simp [hnew])
    · rintro ⟨t, ht, htn, it, hit, hiti, hitt⟩
      refine ⟨{ t with name := newN }, ?_, rfl, it, hit, hiti, hitt⟩
      simp only [List.mem_map]
      exact ⟨t, ht, by rw [if_pos (by simp [htn])]⟩
  · intro j
    cases hcase : hasTagNamed
        { db with tags := db.tags.map (fun t =>
          if t.name == oldN then { t with name := newN } else t) } j oldN with
    | false => rfl
    | true =>
      rw [hasTagNamed_iff] at hcase
      obtain ⟨t', ht', hn', it, hit, -, -⟩ := hcase
      simp only [List.mem_map] at ht'
      obtain ⟨t, ht, rfl⟩ := ht'
      by_cases hc : t.name = oldN
      · rw [if_pos (by simp [hc])] at hn'
        have heq : newN = oldN := hn'
        rw [heq] at hnew
        exact absurd ((tagExists_iff db oldN).mpr ⟨t, ht, hc⟩) (by simp [hnew])
      · rw [if_neg (by simp [hc])] at hn'
        exact (hc hn').elim

theorem renameTag_spec_witness :
    (WF dbW ∧ tagExists dbW "feline" = false)
    ∧ ∃ db', renameTag dbW "cat" "feline" =
        .ok (db', (dbW.images.filter (fun r => hasTagNamed dbW r.id "cat")).length)
      ∧ (∀ j, (hasTagNamed db' j "feline" = true ↔ hasTagNamed dbW j "cat" = true))
      ∧ (∀ j, hasTagNamed db' j "cat" = false) :=
  ⟨⟨by constructor <;> decide, by decide⟩,
   renameTag_spec dbW "cat" "feline" (by constructor <;> decide) (by decide)⟩

/-! ### C4: getImages pagination -/

/-- C4: `getImages` pages through the filtered result ordered by upload time
descending at offset `(page-1)*limit`; the returned total is the distinct
count of matching images before pagination (and under WF equals the number of
matching rows); pages 1 and 2 with the same filter and limit have disjoint id
sets, and when the total fits in two pages their union is exactly the full
filtered result with no duplicates. -/
theorem getImages_pagination (db : DB) (N : Nat) (tag : Option String)
    (orient : Option Orientation) (hWF : WF db) (hN : 1 ≤ N) :
    (∀ page limit, (getImages db ⟨page, limit, tag, orient⟩).1.map (fun m => m.id) =
        (((List.insertionSort uploadDesc
            (db.images.filter (imageMatches db tag orient))).drop
              ((page - 1) * limit)).take limit).map (fun r => r.id))
    ∧ (∀ page limit, List.Pairwise
        (fun a b : ImageMetadata => b.uploadTime ≤ a.uploadTime)
        (getImages db ⟨page, limit, tag, orient⟩).1)
    ∧ ((getImages db ⟨1, N, tag, orient⟩).2 =
        (((db.images.filter (imageMatches db tag orient)).map
            (fun r => r.id)).dedup).length
      ∧ (getImages db ⟨1, N, tag, orient⟩).2 =
          (db.images.filter (imageMatches db tag orient)).length
      ∧ (getImages db ⟨2, N, tag, orient⟩).2 = (getImages db ⟨1, N, tag, orient⟩).2)
    ∧ List.Disjoint ((getImages db ⟨1, N, tag, orient⟩).1.map (fun m => m.id))
        ((getImages db ⟨2, N, tag, orient⟩).1.map (fun m => m.id))
    ∧ ((getImages db ⟨1, N, tag, orient⟩).2 ≤ 2 * N →
        (((getImages db ⟨1, N, tag, orient⟩).1
            ++ (getImages db ⟨2, N, tag, orient⟩).1).map (fun m => m.id)).Perm
          ((db.images.filter (imageMatches db tag orient)).map (fun r => r.id))
        ∧ (((getImages db ⟨1, N, tag, orient⟩).1
            ++ (getImages db ⟨2, N, tag, orient⟩).1).map (fun m => m.id)).Nodup) := by
  have hperm : (List.insertionSort uploadDesc
      (db.images.filter (imageMatches db tag orient))).Perm
      (db.images.filter (imageMatches db tag orient)) :=
    List.perm_insertionSort _ _
  have hMnodup : ((db.images.filter (imageMatches db tag orient)).map
      (fun r => r.id)).Nodup :=
    ((List.filter_sublist _).map _).nodup hWF.imagesNodup
  have hSnodup : ((List.insertionSort uploadDesc
      (db.images.filter (imageMatches db tag orient))).map (fun r => r.id)).Nodup :=
    ((hperm.map _).nodup_iff).mpr hMnodup
  have hids : ∀ page limit,
      (getImages db ⟨page, limit, tag, orient⟩).1.map (fun m => m.id) =
      (((List.insertionSort uploadDesc
          (db.images.filter (imageMatches db tag orient))).drop
            ((page - 1) * limit)).take limit).map (fun r => r.id) := by
    intro page limit
    simp only [getImages, List.map_map]
    rfl
  refine ⟨hids, ?_, ⟨rfl, ?_, rfl⟩, ?_, ?_⟩
  · intro page limit
    have hs : List.Pairwise uploadDesc (List.insertionSort uploadDesc
        (db.images.filter (imageMatches db tag orient))) :=
      List.sorted_insertionSort _ _
    have hsub := (List.take_sublist limit _).trans
      (List.drop_sublist ((page - 1) * limit) (List.insertionSort uploadDesc
        (db.images.filter (imageMatches db tag orient))))
    have hpage : List.Pairwise uploadDesc
        (((List.insertionSort uploadDesc
          (db.images.filter (imageMatches db tag orient))).drop
            ((page - 1) * limit)).take limit) := hs.sublist hsub
    simp only [getImages]
    exact List.pairwise_map.mpr hpage
  · show ((db.images.filter (imageMatches db tag orient)).map
        (fun r => r.id)).dedup.length = _
    rw [List.dedup_eq_self.mpr hMnodup, List.length_map]
  · rw [hids 1 N, hids 2 N]
    have h2N : (((List.insertionSort uploadDesc
        (db.images.filter (imageMatches db tag orient))).take (N + N)).map
          (fun r => r.id)).Nodup :=
      ((List.take_sublist _ _).map _).nodup hSnodup
    rw [List.take_add, List.map_append, List.nodup_append] at h2N
    have := h2N.2.2
    simpa using this
  · intro htot
    have hlen : (db.images.filter (imageMatches db tag orient)).length ≤ N + N := by
      have h1 : (getImages db ⟨1, N, tag, orient⟩).2 =
          (db.images.filter (imageMatches db tag orient)).length := by
        show ((db.images.filter (imageMatches db tag orient)).map
            (fun r => r.id)).dedup.length = _
        rw [List.dedup_eq_self.mpr hMnodup, List.length_map]
      rw [h1, two_mul] at htot
      exact htot
    have hSfull : (List.insertionSort uploadDesc
        (db.images.filter (imageMatches db tag orient))).take (N + N) =
        List.insertionSort uploadDesc
          (db.images.filter (imageMatches db tag orient)) :=
      List.take_of_length_le (by rw [hperm.length_eq]; exact hlen)
    have hcombined : (((getImages db ⟨1, N, tag, orient⟩).1
        ++ (getImages db ⟨2, N, tag, orient⟩).1).map (fun m => m.id)) =
        (List.insertionSort uploadDesc
          (db.images.filter (imageMatches db tag orient))).map (fun r => r.id) := by
      rw [List.map_append, hids 1 N, hids 2 N, ← List.map_append]
      rw [show (1 - 1) * N = 0 by omega, show (2 - 1) * N = N by omega]
      rw [List.drop_zero, ← List.take_add, hSfull]
    rw [hcombined]
    exact ⟨hperm.map _, hSnodup⟩

def dbC4 : DB :=
  { images :=
      [{ id := "a", original_name := "a", upload_time := "2024-01-03",
         expiry_time := none, orientation := .landscape, format := "png",
         width := 1, height := 1, path_original := "pa", path_webp := none,
         path_avif := none, size_original := 1, size_webp := 0, size_avif := 0 },
       { id := "b", original_name := "b", upload_time := "2024-01-01",
         expiry_time := none, orientation := .portrait, format := "png",
         width := 1, height := 2, path_original := "pb", path_webp := none,
         path_avif := none, size_original := 1, size_webp := 0, size_avif := 0 },
       { id := "c", original_name := "c", upload_time := "2024-01-02",
         expiry_time := none, orientation := .landscape, format := "png",
         width := 2, height := 1, path_original := "pc", path_webp := none,
         path_avif := none, size_original := 1, size_webp := 0, size_avif := 0 }],
    tags := [], image_tags := [], nextTagId := 0 }

theorem getImages_pagination_witness :
    (WF dbC4 ∧ 1 ≤ 2)
    ∧ ((∀ page limit, (getImages dbC4 ⟨page, limit, none, none⟩).1.map (fun m => m.id) =
          (((List.insertionSort uploadDesc
              (dbC4.images.filter (imageMatches dbC4 none none))).drop
                ((page - 1) * limit)).take limit).map (fun r => r.id))
      ∧ (∀ page limit, List.Pairwise
          (fun a b : ImageMetadata => b.uploadTime ≤ a.uploadTime)
          (getImages dbC4 ⟨page, limit, none, none⟩).1)
      ∧ ((getImages dbC4 ⟨1, 2, none, none⟩).2 =
          (((dbC4.images.filter (imageMatches dbC4 none none)).map
              (fun r => r.id)).dedup).length
        ∧ (getImages dbC4 ⟨1, 2, none, none⟩).2 =
            (dbC4.images.filter (imageMatches dbC4 none none)).length
        ∧ (getImages dbC4 ⟨2, 2, none, none⟩).2 = (getImages dbC4 ⟨1, 2, none, none⟩).2)
      ∧ List.Disjoint ((getImages dbC4 ⟨1, 2, none, none⟩).1.map (fun m => m.id))
          ((getImages dbC4 ⟨2, 2, none, none⟩).1.map (fun m => m.id))
      ∧ ((getImages dbC4 ⟨1, 2, none, none⟩).2 ≤ 2 * 2 →
          (((getImages dbC4 ⟨1, 2, none, none⟩).1
              ++ (getImages dbC4 ⟨2, 2, none, none⟩).1).map (fun m => m.id)).Perm
            ((dbC4.images.filter (imageMatches dbC4 none none)).map (fun r => r.id))
          ∧ (((getImages dbC4 ⟨1, 2, none, none⟩).1
              ++ (getImages dbC4 ⟨2, 2, none, none⟩).1).map (fun m => m.id)).Nodup)) :=
  ⟨⟨by constructor <;> decide, by decide⟩,
   getImages_pagination dbC4 2 none none (by constructor <;> decide) (by decide)⟩

end Catto
